import Mathlib

/-!
Verification of the habit-tracker periodicity reconciliation engine
(`src/code.gs`): the rule resolver (`getTargetForDate`), the period
bucketing loop (`processHabitStates`), the outcome evaluators
(`processDailyHabitSimple`, `processPeriodHabitSimple`), the read
projection (`getSheetData`) and the snapshot writer
(`savePeriodicitySnapshot`).

Modelling conventions:
* Dates are modelled by their civil day number (`Z := Nat`, days counted
  with the standard Gregorian `days-from-civil` algorithm).  The script
  only ever compares header dates at midnight, so millisecond values are
  in order-preserving bijection with day numbers.
* Spreadsheet cell values (`getValues` results) are modelled by
  `SheetVal`: the empty cell `""`, a numeric value (restricted to
  integers, which covers every value the system itself writes), or a
  text value.  JavaScript strict equality `===` on these is plain
  equality of `SheetVal`; loose equality against a number (`==`) is
  `looseEq`.
* The random tie-break `sort(... || Math.random() - 0.5)` in
  `processPeriodHabitSimple` is modelled by passing the sorted list in
  as an oracle parameter; validity of an oracle (`ValidTie`) says it is
  a permutation of its input that is non-decreasing in the score used
  by the comparator, which is exactly the set of outcomes of a stable
  comparison sort whose comparator is deterministic on distinct scores
  and random on ties.
* Writes (`sheet.getRange(...).setValue(...)`) are collected in order
  into a list instead of being performed; applying a write list to a
  row produces the sheet state after the run.
-/

namespace HabitTracker

/-- Civil day numbers: days since 0000-03-01 in the proleptic Gregorian
calendar (Hinnant's days-from-civil, shifted to stay in `Nat`). -/
abbrev Z := Nat

/-- Gregorian (year, month, day) to civil day number, valid for year ≥ 1.
Mirrors the day arithmetic the script performs through JavaScript `Date`. -/
def daysFromCivil (y m d : Nat) : Nat :=
  let y' := if m ≤ 2 then y - 1 else y
  let era := y' / 400
  let yoe := y' % 400
  let mp := if 2 < m then m - 3 else m + 9
  let doy := (153 * mp + 2) / 5 + (d - 1)
  let doe := yoe * 365 + yoe / 4 - yoe / 100 + doy
  era * 146097 + doe

/-- Civil day number back to (year, month, day); inverse of `daysFromCivil`. -/
def civilFromDays (z : Nat) : Nat × Nat × Nat :=
  let era := z / 146097
  let doe := z % 146097
  let yoe := (doe - doe / 1460 + doe / 36524 - doe / 146096) / 365
  let y' := yoe + era * 400
  let doy := doe - (365 * yoe + yoe / 4 - yoe / 100)
  let mp := (5 * doy + 2) / 153
  let d := doy - (153 * mp + 2) / 5 + 1
  let m := if mp < 10 then mp + 3 else mp - 9
  (if m ≤ 2 then y' + 1 else y', m, d)

/-- Day of week of a civil day number, `0` = Sunday … `6` = Saturday,
matching JavaScript `getUTCDay()`. -/
def dow (z : Z) : Nat := (z + 3) % 7

/-- Shorthand to build concrete dates in examples. -/
def zOf (y m d : Nat) : Z := daysFromCivil y m d

/-- Decimal string of a `Nat` padded to two digits, as `String(n).padStart(2, "0")`. -/
def pad2 (n : Nat) : String := if n < 10 then "0" ++ toString n else toString n

/-- ISO week key string `"YYYY-Www"` of a date; a faithful translation of
`getWeekKey` in `code.gs` (shift to the ISO week's Thursday, then
`ceil((dayOfYear + 1) / 7)`). -/
def getWeekKey (z : Z) : String :=
  let w := dow z
  let dayNum := if w = 0 then 7 else w
  let thu := z + 4 - dayNum
  let ty := (civilFromDays thu).1
  let yearStart := daysFromCivil ty 1 1
  let weekNo := (thu - yearStart + 1 + 6) / 7
  toString ty ++ "-W" ++ pad2 weekNo

/-- Month key string `"YYYY-M"` of a date (`getMonthKey` in `code.gs`:
`getFullYear() + "-" + (getMonth() + 1)`, no zero padding). -/
def getMonthKey (z : Z) : String :=
  let c := civilFromDays z
  toString c.1 ++ "-" ++ toString c.2.1

/-- Month key parsed back to numbers, as `isPeriodStrictlyPast` does with
`split("-").map(Number)`. Parsing `getMonthKey`'s own output recovers the
(year, month) pair exactly. -/
def monthPair (z : Z) : Nat × Nat :=
  let c := civilFromDays z
  (c.1, c.2.1)

/-- JavaScript `<` on strings: lexicographic comparison by code unit
(all characters involved here are ASCII). -/
def ltChars : List Char → List Char → Bool
  | [], [] => false
  | [], _ :: _ => true
  | _ :: _, [] => false
  | a :: as, b :: bs => if a = b then ltChars as bs else decide (a < b)

/-- String comparison used for `periodWeek < currentWeek`. -/
def ltStr (s t : String) : Bool := ltChars s.toList t.toList

/-- Period unit of a periodicity rule: the `d` / `w` / `m` suffix. -/
inductive PType where
  | d
  | w
  | m
deriving DecidableEq, Repr

/-- Translation of `isPeriodStrictlyPast(dateInPeriod, today, type)`:
week keys are compared as strings, month keys numerically (the non-`w`
branch of the source covers every other type). -/
def isPeriodStrictlyPast (z today : Z) (ty : PType) : Bool :=
  if ty = PType.w then ltStr (getWeekKey z) (getWeekKey today)
  else
    let c := monthPair today
    let p := monthPair z
    decide (p.1 < c.1 ∨ (p.1 = c.1 ∧ p.2 < c.2))

/-- Stored spreadsheet cell value as returned by `getValues()`: empty
string, a number (integers only in this embedding; the system itself
only writes integers), or text. -/
inductive SheetVal where
  | empty
  | num (n : Int)
  | text (s : String)
deriving DecidableEq, Repr

/-- Whitespace characters removed by `trim` (ASCII set; enough for the
sheet values considered here). -/
def isWsChar (c : Char) : Bool :=
  c = ' ' ∨ c = '\t' ∨ c = '\n' ∨ c = '\r'

/-- Character-level model of `String.prototype.trim`. -/
def trimChars (cs : List Char) : List Char :=
  ((cs.dropWhile isWsChar).reverse.dropWhile isWsChar).reverse

/-- ASCII lower-casing, the fragment of `toLowerCase` relevant to
periodicity strings. -/
def lowerChar (c : Char) : Char :=
  if 'A' ≤ c ∧ c ≤ 'Z' then Char.ofNat (c.toNat + 32) else c

/-- Decimal value of a non-empty all-digit character list. -/
def digitsVal : List Char → Nat → Option Nat
  | [], acc => some acc
  | c :: rest, acc =>
    if c.isDigit then digitsVal rest (acc * 10 + (c.toNat - 48)) else none

/-- Model of JavaScript `Number()` applied to a string: (trimmed, signed)
decimal integers parse to their value, the empty string to `0`, and
everything else is `NaN` (`none`).  Non-integer numerals are outside
this embedding's domain. -/
def jsToNum (s : String) : Option Int :=
  match trimChars s.toList with
  | [] => some 0
  | '-' :: rest =>
    match rest with
    | [] => none
    | _ => (digitsVal rest 0).map fun n => -(n : Int)
  | '+' :: rest =>
    match rest with
    | [] => none
    | _ => (digitsVal rest 0).map fun n => (n : Int)
  | rest => (digitsVal rest 0).map fun n => (n : Int)

/-- JavaScript loose equality `v == k` of a cell value against an integer. -/
def looseEq (v : SheetVal) (k : Int) : Bool :=
  match v with
  | .empty => decide ((0 : Int) = k)
  | .num n => decide (n = k)
  | .text s =>
    match jsToNum s with
    | some n => decide (n = k)
    | none => false

/-- Condition `d.val == 1 || d.val == 2` used for the `done` count. -/
def looseDone (v : SheetVal) : Bool := looseEq v 1 || looseEq v 2

/-- Condition `d.val !== 1 && d.val !== 2` selecting the non-done cells. -/
def strictNonDone (v : SheetVal) : Bool :=
  decide (v ≠ SheetVal.num 1 ∧ v ≠ SheetVal.num 2)

/-- Member cell of a bucket: `{ colIdx, val, date }` as pushed in
`processHabitStates`. -/
structure DCell where
  colIdx : Nat
  val : SheetVal
  date : Z
deriving DecidableEq, Repr

/-- One pending `setValue` call: target column and new numeric value. -/
structure Write where
  colIdx : Nat
  val : Int
deriving DecidableEq, Repr

/-- Parsed periodicity rule `{ target, type }`. -/
structure Rule where
  target : Nat
  type : PType
deriving DecidableEq, Repr

/-- One snapshot entry `{ date, freq }` of the per-habit history list;
`freq` is already normalized (`String(val || "").trim().toLowerCase()`). -/
structure Snap where
  date : Z
  freq : String
deriving DecidableEq, Repr

/-- Leading decimal digits of a character list: their value and the rest. -/
def takeDigits : List Char → Nat → (Nat × List Char)
  | [], acc => (acc, [])
  | c :: rest, acc =>
    if c.isDigit then takeDigits rest (acc * 10 + (c.toNat - 48))
    else (acc, c :: rest)

/-- Attempted match of `(\d+)\/([dwm])` at the head of a character list. -/
def matchHere (cs : List Char) : Option (Nat × Char) :=
  match cs with
  | [] => none
  | c :: _ =>
    if c.isDigit then
      match takeDigits cs 0 with
      | (n, '/' :: u :: _) =>
        if u = 'd' ∨ u = 'w' ∨ u = 'm' then some (n, u) else none
      | _ => none
    else none

/-- Leftmost match of the unanchored regex `(\d+)\/([dwm])`: try each
start position left to right.  (Positions inside a digit run fail exactly
when the run's start fails, so advancing one character at a time gives
the regex's leftmost-match semantics.) -/
def scanRule : List Char → Option (Nat × Char)
  | [] => none
  | c :: rest =>
    match matchHere (c :: rest) with
    | some r => some r
    | none => scanRule rest

/-- Unit character to `PType` (`match[2]` is one of `d`, `w`, `m`). -/
def unitOf (u : Char) : PType :=
  if u = 'w' then PType.w else if u = 'm' then PType.m else PType.d

/-- Tail of `getTargetForDate` applied to the resolved periodicity string
`pStr`: empty string means the habit did not exist (`null`), a regex
match gives `{ target, type }`, and any other non-empty string defaults
to `{ 1, day }`. -/
def ruleOfFreq (pStr : String) : Option Rule :=
  if pStr = "" then none
  else
    match scanRule pStr.toList with
    | some (n, u) => some ⟨n, unitOf u⟩
    | none => some ⟨1, PType.d⟩

/-- Normalization applied to history cell values when the engine builds
its history map: `String(val || "").trim().toLowerCase()`. -/
def normFreq (s : String) : String :=
  String.mk ((trimChars s.toList).map lowerChar)

/-- Normalization of the live periodicity cell in `processHabitStates`:
`String(row[1] || "1/d").trim().toLowerCase()` (empty cell defaults). -/
def livePeriodicityOf (raw : String) : String :=
  normFreq (if raw = "" then "1/d" else raw)

/-- Scan of the snapshot list in `getTargetForDate`: the last entry of the
maximal prefix whose dates are `≤ z` (the loop `break`s at the first later
date), or `none` when the very first entry is already later. -/
def lastLE (z : Z) : List Snap → Option Snap
  | [] => none
  | s :: rest =>
    if s.date ≤ z then some ((lastLE z rest).getD s) else none

/-- Translation of the per-habit closure `getTargetForDate(dateObj)`.
`hist` is the habit's history list when the engine's history map has a
non-empty entry for it (`historyMap && historyMap[name] && length > 0`),
otherwise `none` and the live periodicity is used.  A query date older
than every snapshot falls back to the oldest snapshot (`list[0]`). -/
def getTargetForDate (hist : Option (List Snap)) (live : String) (z : Z) : Option Rule :=
  match hist with
  | some (s :: rest) => ruleOfFreq (((lastLE z (s :: rest)).getD s).freq)
  | some [] => ruleOfFreq live
  | none => ruleOfFreq live

/-- Translation of `processDailyHabitSimple`: every member cell dated
strictly before today whose value is `""`, `0` or `-2` is set to `-1`. -/
def processDailyHabitSimple (days : List DCell) (today : Z) : List Write :=
  days.filterMap fun d =>
    if d.date < today ∧
        (d.val = SheetVal.empty ∨ d.val = SheetVal.num 0 ∨ d.val = SheetVal.num (-2))
    then some ⟨d.colIdx, -1⟩ else none

/-- Score of the failure tie-break comparator: `-1 ↦ 0`, `0`/`""` ↦ 1,
anything else `↦ 2`. -/
def score (v : SheetVal) : Nat :=
  if v = SheetVal.num (-1) then 0
  else if v = SheetVal.num 0 ∨ v = SheetVal.empty then 1
  else 2

/-- Condition `currentVal !== newVal` guarding each write in the elapsed
branch, where `currentVal = (item.val === "") ? 0 : item.val` and
`newVal` is a number: a text value is never strictly equal to a number. -/
def diffFromInt (v : SheetVal) (k : Int) : Bool :=
  match v with
  | .empty => decide ((0 : Int) ≠ k)
  | .num n => decide (n ≠ k)
  | .text _ => true

/-- Write assignment loop of the elapsed branch over the sorted non-done
list: positions with `i < failedNeeded` get `-1`, the rest `-2`, and a
write is emitted only when the value differs.  The loop counter `i < fn`
is rendered as a countdown on `fn`. -/
def pastAssign : Nat → List DCell → List Write
  | _, [] => []
  | fn, d :: rest =>
    let newVal : Int := if fn ≠ 0 then -1 else -2
    (if diffFromInt d.val newVal then [⟨d.colIdx, newVal⟩] else []) ++
      pastAssign (fn - 1) rest

/-- Ongoing-period branch of `processPeriodHabitSimple`: if the target is
still reachable counting cells dated today or later, past neutral cells
are excused with `-2`; otherwise nothing is written. -/
def ongoingWrites (days : List DCell) (target : Nat) (today : Z) : List Write :=
  let done := (days.filter fun d => looseDone d.val).length
  let futureOrToday := (days.filter fun d => today ≤ d.date).length
  if target ≤ done + futureOrToday then
    days.filterMap fun d =>
      if d.date < today ∧ (d.val = SheetVal.empty ∨ d.val = SheetVal.num 0)
      then some ⟨d.colIdx, -2⟩ else none
  else []

/-- Non-done member cells: `days.filter(d => d.val !== 1 && d.val !== 2)`. -/
def nonDoneOf (days : List DCell) : List DCell :=
  days.filter fun d => strictNonDone d.val

/-- Date of the last member cell (`days[days.length - 1].date`; buckets
are never empty, the default is unreachable). -/
def lastDateOf (days : List DCell) : Z :=
  match days.getLast? with
  | some d => d.date
  | none => 0

/-- Translation of `processPeriodHabitSimple`.  `sortedNonDone` stands
for `nonDone` after the randomized score sort; callers supply it through
a tie-break oracle. -/
def processPeriodHabitSimple (sortedNonDone : List DCell) (days : List DCell)
    (target : Nat) (today : Z) (ty : PType) : List Write :=
  let done := (days.filter fun d => looseDone d.val).length
  if isPeriodStrictlyPast (lastDateOf days) today ty then
    pastAssign (target - done) sortedNonDone
  else ongoingWrites days target today

/-- Tie-break oracles must return a permutation of the non-done list that
is non-decreasing in `score` — the possible outcomes of the randomized
sort. -/
def ScoreSorted (l : List DCell) : Prop :=
  l.Pairwise fun a b => score a.val ≤ score b.val

/-- Bucket grouping key: `date.getTime()` (a number) for daily rules, a
key string for weekly/monthly rules.  A number is never strictly equal
to a string, so the two constructors never collide. -/
inductive BKey where
  | num (t : Z)
  | str (s : String)
deriving DecidableEq, Repr

/-- Key computed for a date under a rule type (`processHabitStates`). -/
def keyFor (ty : PType) (z : Z) : BKey :=
  match ty with
  | .d => .num z
  | .w => .str (getWeekKey z)
  | .m => .str (getMonthKey z)

/-- Open bucket state `{ type, key, target, days }` of the grouping loop. -/
structure Bucket where
  type : PType
  key : BKey
  target : Nat
  days : List DCell
deriving DecidableEq, Repr

/-- Closing a possibly-open bucket (`flushBucket`; empty buckets are
never open, every open bucket holds at least one day). -/
def flushB : Option Bucket → List Bucket
  | none => []
  | some b => [b]

/-- Grouping loop of `processHabitStates` over the dated columns of one
habit row.  `c` is the 0-based column counter (starting at 2, the first
date column), so a cell at counter `c` has sheet column `c + 1`; cells
whose header failed to parse as a date are skipped; a date whose rule
resolves to `null` closes the open bucket; a matching key and type
appends the cell and overwrites the bucket target with the just-resolved
count; otherwise the open bucket is flushed and a new one is opened. -/
def bucketsAux (hist : Option (List Snap)) (live : String) :
    Nat → List (Option Z × SheetVal) → Option Bucket → List Bucket
  | _, [], cur => flushB cur
  | c, (none, _) :: rest, cur => bucketsAux hist live (c + 1) rest cur
  | c, (some z, v) :: rest, cur =>
    match getTargetForDate hist live z with
    | none => flushB cur ++ bucketsAux hist live (c + 1) rest none
    | some rule =>
      let key := keyFor rule.type z
      let dc : DCell := ⟨c + 1, v, z⟩
      match cur with
      | some b =>
        if b.key = key ∧ b.type = rule.type then
          bucketsAux hist live (c + 1) rest
            (some { b with target := rule.target, days := b.days ++ [dc] })
        else
          b :: bucketsAux hist live (c + 1) rest
            (some ⟨rule.type, key, rule.target, [dc]⟩)
      | none =>
        bucketsAux hist live (c + 1) rest
          (some ⟨rule.type, key, rule.target, [dc]⟩)

/-- Buckets of one habit row: the loop starting at column counter 2 with
no open bucket. -/
def bucketsOf (hist : Option (List Snap)) (live : String)
    (cells : List (Option Z × SheetVal)) : List Bucket :=
  bucketsAux hist live 2 cells none

/-- Dated cells of a row as `DCell`s (column counter `c` as in
`bucketsAux`); the cells the engine can ever touch. -/
def dcellsAux : Nat → List (Option Z × SheetVal) → List DCell
  | _, [] => []
  | c, (none, _) :: rest => dcellsAux (c + 1) rest
  | c, (some z, v) :: rest => ⟨c + 1, v, z⟩ :: dcellsAux (c + 1) rest

/-- Dated cells of a row, counted from the first date column. -/
def dcellsOf (cells : List (Option Z × SheetVal)) : List DCell :=
  dcellsAux 2 cells

/-- Writes produced when a finished bucket is flushed: day buckets go
through the daily processor, week/month buckets through the period
processor with the tie-break oracle supplying the randomized sort. -/
def flushWrites (tie : List DCell → List DCell) (today : Z) (b : Bucket) : List Write :=
  match b.type with
  | .d => processDailyHabitSimple b.days today
  | .w => processPeriodHabitSimple (tie (nonDoneOf b.days)) b.days b.target today .w
  | .m => processPeriodHabitSimple (tie (nonDoneOf b.days)) b.days b.target today .m

/-- Writes of a bucket list; `i` numbers the flushes so each one may draw
an independent tie-break outcome. -/
def flushAll (tie : Nat → List DCell → List DCell) (today : Z) :
    Nat → List Bucket → List Write
  | _, [] => []
  | i, b :: rest => flushWrites (tie i) today b ++ flushAll tie today (i + 1) rest

/-- Full engine pass over one habit row: bucket the dated cells, then
flush every bucket. -/
def runRow (tie : Nat → List DCell → List DCell) (hist : Option (List Snap))
    (live : String) (cells : List (Option Z × SheetVal)) (today : Z) : List Write :=
  flushAll tie today 0 (bucketsOf hist live cells)

/-- Raw `PeriodicityHistory` sheet: parsed header dates of the snapshot
columns (index 0 is the column right of the name column; `none` marks a
header that is not a date) and one `(name, entries)` row per habit, the
entries aligned with the header. -/
structure HistTable where
  snapHeader : List (Option Z)
  rows : List (String × List String)
deriving DecidableEq, Repr

/-- Collecting the parseable header dates with their column index. -/
def snapIdx : List (Option Z) → Nat → List (Z × Nat)
  | [], _ => []
  | none :: rest, i => snapIdx rest (i + 1)
  | some z :: rest, i => (z, i) :: snapIdx rest (i + 1)

/-- Valid snapshot columns `(date, column index)` of the history header,
sorted ascending by date (`snapDates.sort((a,b) => a.date - b.date)`;
insertion sort is stable, like the JavaScript sort). -/
def snapDatesOf (t : HistTable) : List (Z × Nat) :=
  List.insertionSort (fun a b => a.1 ≤ b.1) (snapIdx t.snapHeader 0)

/-- Lookup in a JavaScript object built by `map[name] = v` in row order:
the last row with the given name wins. -/
def lookupLast (rows : List (String × List String)) (name : String) :
    Option (List String) :=
  match rows with
  | [] => none
  | (n, v) :: rest =>
    match lookupLast rest name with
    | some r => some r
    | none => if n = name then some v else none

/-- Per-habit history list as the engine builds it: one normalized entry
per sorted snapshot column (missing row cells read as `""`). -/
def histListFor (t : HistTable) (name : String) : Option (List Snap) :=
  (lookupLast t.rows name).map fun freqs =>
    (snapDatesOf t).map fun p => ⟨p.1, normFreq (freqs.getD p.2 "")⟩

/-- Effective history argument for one habit, as tested by
`historyMap && historyMap[name] && historyMap[name].length > 0`:
`none` (fall back to live) unless the table exists, has a row for the
habit and that row yields a non-empty list. -/
def effHist (h : Option HistTable) (name : String) : Option (List Snap) :=
  match h with
  | none => none
  | some t =>
    match histListFor t name with
    | some [] => none
    | some l => some l
    | none => none

/-- One habit row of the main sheet: name, raw live periodicity cell and
the dated cells (header date, stored value). -/
structure HabitRow where
  name : String
  live : String
  cells : List (Option Z × SheetVal)
deriving DecidableEq, Repr

/-- A write tagged with the 0-based habit row it belongs to. -/
structure RWrite where
  row : Nat
  colIdx : Nat
  val : Int
deriving DecidableEq, Repr

/-- Engine iteration over the habit rows from row index `r`. -/
def processFrom (tie : Nat → Nat → List DCell → List DCell)
    (h : Option HistTable) (today : Z) :
    Nat → List HabitRow → List RWrite
  | _, [] => []
  | r, hr :: rest =>
    (runRow (tie r) (effHist h hr.name) (livePeriodicityOf hr.live) hr.cells today).map
        (fun w => ⟨r, w.colIdx, w.val⟩) ++
      processFrom tie h today (r + 1) rest

/-- Translation of `processHabitStates`: for every habit row, resolve the
periodicity rule per date from the history table (falling back to the
live cell), bucket the dated columns, evaluate every bucket and collect
the `setValue` calls. -/
def processHabitStates (tie : Nat → Nat → List DCell → List DCell)
    (h : Option HistTable) (rows : List HabitRow) (today : Z) : List RWrite :=
  processFrom tie h today 0 rows

/-- Value a write list leaves in a given column (`find?` is sound because
each engine pass writes any column at most once). -/
def lookupW (ws : List Write) (k : Nat) : Option Int :=
  (ws.find? fun w => w.colIdx == k).map fun w => w.val

/-- Effect of a write list on one bucket member cell. -/
def updD (ws : List Write) (d : DCell) : DCell :=
  match lookupW ws d.colIdx with
  | some n => { d with val := .num n }
  | none => d

/-- Application of a write list to the dated cells of a row, column
counter `c` as in `bucketsAux`. -/
def applyRowAux (ws : List Write) : Nat → List (Option Z × SheetVal) →
    List (Option Z × SheetVal)
  | _, [] => []
  | c, (od, v) :: rest =>
    (od, match lookupW ws (c + 1) with
         | some n => .num n
         | none => v) :: applyRowAux ws (c + 1) rest

/-- Sheet state of one row after an engine pass. -/
def applyRow (ws : List Write) (cells : List (Option Z × SheetVal)) :
    List (Option Z × SheetVal) :=
  applyRowAux ws 2 cells

/-- Sheet state after applying tagged writes, from row index `r`. -/
def applySheetFrom (ws : List RWrite) : Nat → List HabitRow → List HabitRow
  | _, [] => []
  | r, hr :: rest =>
    { hr with
        cells := applyRow ((ws.filter fun w => w.row == r).map fun w => ⟨w.colIdx, w.val⟩)
          hr.cells } :: applySheetFrom ws (r + 1) rest

/-- Sheet state after applying the writes of an engine pass. -/
def applySheet (ws : List RWrite) (rows : List HabitRow) : List HabitRow :=
  applySheetFrom ws 0 rows

/-- Cell value normalization of the read projection (`getSheetData`):
`if (val === "") val = 0; else val = Number(val); if (isNaN(val)) val = 0`. -/
def normalizeVal (v : SheetVal) : Int :=
  match v with
  | .empty => 0
  | .num n => n
  | .text s => (jsToNum s).getD 0

/-- Civil day number of the Unix epoch 1970-01-01, the initial
`bestSnapDate = new Date(0)` of the projection's snapshot scan. -/
def epochZ : Z := daysFromCivil 1970 1 1

/-- Snapshot-column scan of `getSheetData`: keep the latest column whose
date is `≤ today` (and `≥` the running best, initially the epoch, so
ties resolve to the later column); invalid headers are skipped. -/
def projBestAux : List (Option Z) → Nat → Z → Z → Option Nat → Option Nat
  | [], _, _, _, best => best
  | od :: rest, i, today, bestDate, best =>
    match od with
    | some z =>
      if z ≤ today ∧ bestDate ≤ z then projBestAux rest (i + 1) today z (some i)
      else projBestAux rest (i + 1) today bestDate best
    | none => projBestAux rest (i + 1) today bestDate best

/-- Snapshot column the projection loads: the scan's result, or — when no
column qualifies — the first snapshot column (`bestSnapIdx = 1`) if one
exists at all. -/
def projSelIdx (t : HistTable) (today : Z) : Option Nat :=
  match projBestAux t.snapHeader 0 today epochZ none with
  | some i => some i
  | none => if t.snapHeader.length ≠ 0 then some 0 else none

/-- Lookup in the object the projection builds from the selected column
(`if (n) historyMap[n] = v`: empty names are skipped, later rows win). -/
def projLookup (rows : List (String × List String)) (sel : Nat) (name : String) :
    Option String :=
  match rows with
  | [] => none
  | (n, v) :: rest =>
    match projLookup rest sel name with
    | some r => some r
    | none => if n = name ∧ n ≠ "" then some (v.getD sel "") else none

/-- Periodicity string `getSheetData` emits for one habit: the habit's
entry in the selected snapshot column when defined and non-empty,
otherwise the raw live cell. -/
def projPeriodicity (h : Option HistTable) (today : Z) (name live : String) : String :=
  let fromHistory :=
    match h with
    | none => none
    | some t =>
      if t.rows = [] then none
      else
        match projSelIdx t today with
        | some sel => projLookup t.rows sel name
        | none => none
  match fromHistory with
  | some v => if v = "" then live else v
  | none => live

/-- Dates of the snapshot columns paired with their column index, in
column order starting at `i0`. -/
def zipIdxFrom (i0 : Nat) : List Z → List (Z × Nat)
  | [] => []
  | z :: rest => (z, i0) :: zipIdxFrom (i0 + 1) rest

/-- Snapshot column both resolution paths settle on when the header
dates `zs` are valid and ascending: the last column dated `≤ today`, or
column 0 (the oldest, "origin") when today precedes every snapshot. -/
def selIdxOf (zs : List Z) (today : Z) : Nat :=
  if (zs.countP fun z => decide (z ≤ today)) = 0 then 0
  else (zs.countP fun z => decide (z ≤ today)) - 1

/-- Periodicity value `savePeriodicitySnapshot` writes for one habit:
`liveData[i][1] || "1/d"` — the raw live cell, defaulting only when it
is exactly the empty string. -/
def writtenPeriod (liveRaw : String) : String :=
  if liveRaw = "" then "1/d" else liveRaw

/-- Snapshot entries one `savePeriodicitySnapshot` run adds under today's
date column: one `(name, writtenPeriod live)` pair per live habit row. -/
def snapshotEntries (rows : List HabitRow) : List (String × String) :=
  rows.map fun hr => (hr.name, writtenPeriod hr.live)

/-- Validity of a per-row tie-break oracle: every call yields a
permutation of its input that is non-decreasing in `score`. -/
def ValidTie1 (tie : Nat → List DCell → List DCell) : Prop :=
  ∀ i l, List.Perm (tie i l) l ∧ ScoreSorted (tie i l)

/-- Validity of a whole-sheet tie-break oracle (row and flush index). -/
def ValidTie2 (tie : Nat → Nat → List DCell → List DCell) : Prop :=
  ∀ r, ValidTie1 (tie r)

/-- One concrete valid tie-break outcome: the stable sort by score. -/
def tieSort (l : List DCell) : List DCell :=
  List.insertionSort (fun a b => score a.val ≤ score b.val) l

/-- The stable-sort oracle for whole-sheet runs. -/
def tieS : Nat → Nat → List DCell → List DCell := fun _ _ => tieSort

/-- Agreement of the loose `done` test with the enumerated completions: a
value the comparator `d.val == 1 || d.val == 2` accepts really is the
number `1` or `2` (rules out text cells such as `"1"`). -/
def ValOk (v : SheetVal) : Prop :=
  looseDone v = true → v = SheetVal.num 1 ∨ v = SheetVal.num 2

instance (v : SheetVal) : Decidable (ValOk v) := by
  unfold ValOk
  infer_instance

/-- Post-state of the sorted non-done list after the elapsed-period
assignment: the first `fn` cells hold `-1`, the rest `-2`. -/
def assignVals : Nat → List DCell → List DCell
  | _, [] => []
  | fn, d :: rest =>
    { d with val := SheetVal.num (if fn ≠ 0 then -1 else -2) } :: assignVals (fn - 1) rest

/-- Effect of a write list on a bucket (values of its member cells). -/
def bUpd (ws : List Write) (b : Bucket) : Bucket :=
  { b with days := b.days.map (updD ws) }

/-- Cell of a sheet at habit row `r` (0-based) and date column `i`
(0-based position among the dated columns, sheet column `i + 3`). -/
def cellAt (rows : List HabitRow) (r i : Nat) : Option (Option Z × SheetVal) :=
  match rows.get? r with
  | some hr => hr.cells.get? i
  | none => none

/-- History with a `1/d` snapshot effective 2025-05-01 and a `3/w`
snapshot effective 2025-06-01 (the §8 rule-change scenario). -/
def histJun : List Snap := [⟨zOf 2025 5 1, "1/d"⟩, ⟨zOf 2025 6 1, "3/w"⟩]

/-- Date columns 2025-05-30 .. 2025-06-02 around the rule change
(2025-06-01 is the Sunday closing ISO week 2025-W22). -/
def cellsJun : List (Option Z × SheetVal) :=
  [(some (zOf 2025 5 30), .num 0), (some (zOf 2025 5 31), .num 0),
   (some (zOf 2025 6 1), .num 0), (some (zOf 2025 6 2), .num 0)]

/-- Single past-week cell holding the neutral value `0` (sheet column 3,
dated Monday 2025-06-02). -/
def oneNeutralPastDay : List DCell := [⟨3, .num 0, zOf 2025 6 2⟩]

/-- Past Monday holding the text value `"1"` next to a past neutral
Tuesday, both in ISO week 2025-W23. -/
def textOneWeek : List DCell :=
  [⟨3, .text "1", zOf 2025 6 2⟩, ⟨4, .num 0, zOf 2025 6 3⟩]

/-- Habit row whose only cell stores the text value `"1"` on a past
Monday; its rule is one completion per week. -/
def textOneRow : HabitRow := ⟨"h", "1/w", [(some (zOf 2025 6 2), .text "1")]⟩

/-- History table whose habit `h` has snapshots on 2025-05-01 (`2/w`) and
2025-06-01 (empty cell). -/
def emptySnapTable : HistTable :=
  ⟨[some (zOf 2025 5 1), some (zOf 2025 6 1)], [("h", ["2/w", ""])]⟩

/-- Elapsed-week bucket demo: one done cell and two neutral cells in ISO
week 2025-W23. -/
def weekDemo : List DCell :=
  [⟨3, .num 1, zOf 2025 6 2⟩, ⟨4, .empty, zOf 2025 6 3⟩, ⟨5, .num 0, zOf 2025 6 4⟩]

/-- Open-week bucket demo: a past neutral Monday and a future neutral
Saturday of the week containing Friday 2025-06-06. -/
def openWeek : List DCell :=
  [⟨3, .empty, zOf 2025 6 2⟩, ⟨4, .empty, zOf 2025 6 7⟩]

/-- Member cells of a bucket list, in order. -/
def bDaysOf : List Bucket → List DCell
  | [] => []
  | b :: rest => b.days ++ bDaysOf rest

/-- Member cells of a possibly-open bucket. -/
def curDays : Option Bucket → List DCell
  | none => []
  | some b => b.days

/-- Per-cell effect of one daily pass: past neutral-or-excused cells
become `-1`, everything else is untouched. -/
def dailyPostVal (today : Z) (d : DCell) : DCell :=
  if d.date < today ∧
      (d.val = SheetVal.empty ∨ d.val = SheetVal.num 0 ∨ d.val = SheetVal.num (-2))
  then { d with val := SheetVal.num (-1) } else d

/-- Per-cell effect of the open-period excuse pass: past neutral cells
become `-2`, everything else is untouched. -/
def ongoingPostVal (today : Z) (d : DCell) : DCell :=
  if d.date < today ∧ (d.val = SheetVal.empty ∨ d.val = SheetVal.num 0)
  then { d with val := SheetVal.num (-2) } else d

/-- Write list of the open-period excuse pass once the target is known to
be reachable: the body of `ongoingWrites`'s positive branch. -/
def excuseWrites (today : Z) (l : List DCell) : List Write :=
  l.filterMap fun d =>
    if d.date < today ∧ (d.val = SheetVal.empty ∨ d.val = SheetVal.num 0)
    then some ⟨d.colIdx, -2⟩ else none

/-! ## Helper lemmas -/

theorem tieSort_perm (l : List DCell) : List.Perm (tieSort l) l :=
  List.perm_insertionSort _ l

theorem tieSort_sorted (l : List DCell) : ScoreSorted (tieSort l) := by
  haveI : IsTotal DCell (fun a b => score a.val ≤ score b.val) :=
    ⟨fun a b => Nat.le_total _ _⟩
  haveI : IsTrans DCell (fun a b => score a.val ≤ score b.val) :=
    ⟨fun _ _ _ => Nat.le_trans⟩
  exact List.sorted_insertionSort _ l

theorem validTie2_tieS : ValidTie2 tieS :=
  fun _ _ l => ⟨tieSort_perm l, tieSort_sorted l⟩

theorem ruleOfFreq_ne_none (s : String) (h : s ≠ "") : ruleOfFreq s ≠ none := by
  unfold ruleOfFreq
  simp only [if_neg h]
  cases scanRule s.toList with
  | none => simp
  | some r => simp

/-! ## C5: day-bucket rule -/

/-- C5: for every day-bucketed cell, if its date is strictly before today
and its value is empty, 0, or -2, one engine pass sets it to -1; if its
date is today or later, the engine leaves it untouched regardless of its
value (`processDailyHabitSimple`). -/
theorem claim5_day_bucket_rule (days : List DCell) (today : Z)
    (hnd : (days.map DCell.colIdx).Nodup) :
    ∀ d ∈ days,
      ((d.date < today ∧
          (d.val = SheetVal.empty ∨ d.val = SheetVal.num 0 ∨ d.val = SheetVal.num (-2))) →
        Write.mk d.colIdx (-1) ∈ processDailyHabitSimple days today) ∧
      (today ≤ d.date →
        ∀ v, Write.mk d.colIdx v ∉ processDailyHabitSimple days today) := by
  intro d hd
  constructor
  · intro hcond
    unfold processDailyHabitSimple
    exact List.mem_filterMap.mpr ⟨d, hd, by rw [if_pos hcond]⟩
  · intro hfut v hmem
    unfold processDailyHabitSimple at hmem
    rcases List.mem_filterMap.mp hmem with ⟨d', hd', hw⟩
    by_cases hcond : d'.date < today ∧
        (d'.val = SheetVal.empty ∨ d'.val = SheetVal.num 0 ∨ d'.val = SheetVal.num (-2))
    · rw [if_pos hcond] at hw
      have hcol : d'.colIdx = d.colIdx := by
        have := congrArg Write.colIdx (Option.some.inj hw)
        simpa using this
      have hde : d' = d := List.inj_on_of_nodup_map hnd hd' hd hcol
      subst hde
      exact absurd hcond.1 (Nat.not_lt.mpr hfut)
    · rw [if_neg hcond] at hw
      exact Option.noConfusion hw

/-- Closed check of C5 on a two-cell daily habit: the past empty cell
(column 3) draws a `-1` write and the future empty cell (column 4) draws
no write at all. -/
theorem claim5_witness :
    (Write.mk 3 (-1) ∈
      processDailyHabitSimple
        [⟨3, SheetVal.empty, zOf 2025 6 2⟩, ⟨4, SheetVal.empty, zOf 2025 6 21⟩]
        (zOf 2025 6 20)) ∧
    (∀ v, Write.mk 4 v ∉
      processDailyHabitSimple
        [⟨3, SheetVal.empty, zOf 2025 6 2⟩, ⟨4, SheetVal.empty, zOf 2025 6 21⟩]
        (zOf 2025 6 20)) := by
  have h := claim5_day_bucket_rule
    [⟨3, SheetVal.empty, zOf 2025 6 2⟩, ⟨4, SheetVal.empty, zOf 2025 6 21⟩]
    (zOf 2025 6 20) (by decide)
  exact ⟨(h ⟨3, SheetVal.empty, zOf 2025 6 2⟩ (by simp)).1 (by decide),
    (h ⟨4, SheetVal.empty, zOf 2025 6 21⟩ (by simp)).2 (by decide)⟩

/-! ## C6: resolver origin fallback -/

/-- C6: for a habit with a non-empty snapshot history and a query date
strictly earlier than every snapshot's effective date, `getTargetForDate`
returns the rule parsed from the oldest snapshot's periodicity string —
the live periodicity (`live`) does not occur in the result at all, so a
later edit of the live value cannot change past accounting. -/
theorem claim6_origin_fallback (s : Snap) (rest : List Snap) (live : String) (z : Z)
    (_hsorted : (s :: rest).Pairwise fun a b => a.date ≤ b.date)
    (hbefore : ∀ t ∈ s :: rest, z < t.date) :
    getTargetForDate (some (s :: rest)) live z = ruleOfFreq s.freq := by
  have h0 : z < s.date := hbefore s (List.mem_cons_self s rest)
  have h1 : ¬ s.date ≤ z := Nat.not_le.mpr h0
  have h2 : lastLE z (s :: rest) = none := by
    unfold lastLE
    rw [if_neg h1]
  simp [getTargetForDate, h2]

/-- Closed check of C6: a query on 2025-01-01, before both snapshots of
`histJun`, resolves to the oldest snapshot's `1/d` — not to the edited
live value `9/m`. -/
theorem claim6_witness :
    getTargetForDate (some histJun) "9/m" (zOf 2025 1 1) = ruleOfFreq "1/d" ∧
      ruleOfFreq "1/d" = some ⟨1, PType.d⟩ ∧
      ruleOfFreq (livePeriodicityOf "9/m") = some ⟨9, PType.m⟩ := by
  refine ⟨?_, by decide, by decide⟩
  exact claim6_origin_fallback ⟨zOf 2025 5 1, "1/d"⟩ [⟨zOf 2025 6 1, "3/w"⟩] "9/m"
    (zOf 2025 1 1) (by decide) (by decide)

/-! ## C7: last-resolved rule wins inside a bucket -/

/-- C7: while bucketing, a date whose resolved rule matches the open
bucket's key and unit is appended to that bucket and the bucket's target
is overwritten with the just-resolved rule's count; and in the concrete
rule-change scenario (`1/d` before 2025-06-01, `3/w` from 2025-06-01)
the dates from 2025-06-01 to the end of ISO week 2025-W22 form a single
weekly bucket with target 3 while the earlier dates stay daily. -/
theorem claim7_last_rule_wins :
    (∀ (hist : Option (List Snap)) (live : String) (c : Nat) (z : Z) (v : SheetVal)
        (rest : List (Option Z × SheetVal)) (b : Bucket) (rule : Rule),
        getTargetForDate hist live z = some rule →
        b.key = keyFor rule.type z → b.type = rule.type →
        bucketsAux hist live c ((some z, v) :: rest) (some b) =
          bucketsAux hist live (c + 1) rest
            (some { b with target := rule.target, days := b.days ++ [⟨c + 1, v, z⟩] })) ∧
    bucketsOf (some histJun) "1/d" cellsJun =
      [⟨PType.d, .num (zOf 2025 5 30), 1, [⟨3, .num 0, zOf 2025 5 30⟩]⟩,
       ⟨PType.d, .num (zOf 2025 5 31), 1, [⟨4, .num 0, zOf 2025 5 31⟩]⟩,
       ⟨PType.w, .str "2025-W22", 3, [⟨5, .num 0, zOf 2025 6 1⟩]⟩,
       ⟨PType.w, .str "2025-W23", 3, [⟨6, .num 0, zOf 2025 6 2⟩]⟩] := by
  constructor
  · intro hist live c z v rest b rule hrule hkey htype
    have hc : b.key = keyFor rule.type z ∧ b.type = rule.type := ⟨hkey, htype⟩
    conv_lhs => simp only [bucketsAux, hrule]
    rw [if_pos hc]
  · decide

/-- Closed check of C7's general step: appending Sunday 2025-06-01 to an
open `2025-W22` weekly bucket overwrites its target `1` with the newly
resolved count `3`. -/
theorem claim7_witness :
    bucketsAux none "3/w" 3 [(some (zOf 2025 6 1), SheetVal.num 0)]
        (some ⟨PType.w, .str "2025-W22", 1, [⟨3, SheetVal.empty, zOf 2025 5 31⟩]⟩) =
      bucketsAux none "3/w" 4 []
        (some ⟨PType.w, .str "2025-W22", 3,
          [⟨3, SheetVal.empty, zOf 2025 5 31⟩, ⟨4, SheetVal.num 0, zOf 2025 6 1⟩]⟩) :=
  claim7_last_rule_wins.1 none "3/w" 3 (zOf 2025 6 1) (SheetVal.num 0) []
    ⟨PType.w, .str "2025-W22", 1, [⟨3, SheetVal.empty, zOf 2025 5 31⟩]⟩
    ⟨3, PType.w⟩ (by decide) (by decide) (by decide)

/-! ## C8: read projection value normalization -/

/-- C8 counterexample: the projection does not clamp numeric values — a
stored `7` is emitted as `7`, which is none of the five enumerated
status integers. -/
theorem claim8_counterexample :
    normalizeVal (SheetVal.num 7) = 7 ∧
      ¬(normalizeVal (SheetVal.num 7) = -2 ∨ normalizeVal (SheetVal.num 7) = -1 ∨
        normalizeVal (SheetVal.num 7) = 0 ∨ normalizeVal (SheetVal.num 7) = 1 ∨
        normalizeVal (SheetVal.num 7) = 2) := by
  decide

/-- C8 amended: the emitted value is `Number(stored)` with empty and
non-numeric stored values normalized to `0`; it lies in the five
enumerated integers whenever the stored value is empty, non-numeric
text, or itself one of the five integers (a numeric value outside the
enumeration passes through unchanged). -/
theorem claim8_amended (v : SheetVal)
    (hv : v = SheetVal.empty ∨ (∃ s, v = SheetVal.text s ∧ jsToNum s = none) ∨
      (∃ n : Int, v = SheetVal.num n ∧
        (n = -2 ∨ n = -1 ∨ n = 0 ∨ n = 1 ∨ n = 2))) :
    normalizeVal v = -2 ∨ normalizeVal v = -1 ∨ normalizeVal v = 0 ∨
      normalizeVal v = 1 ∨ normalizeVal v = 2 := by
  rcases hv with h | ⟨s, h, hs⟩ | ⟨n, h, hn⟩
  · subst h
    simp [normalizeVal]
  · subst h
    simp [normalizeVal, hs]
  · subst h
    simpa [normalizeVal] using hn

/-- Closed check of C8 as amended, at an empty cell, a non-numeric text
cell and the five enumerated integers. -/
theorem claim8_witness :
    (normalizeVal SheetVal.empty = -2 ∨ normalizeVal SheetVal.empty = -1 ∨
      normalizeVal SheetVal.empty = 0 ∨ normalizeVal SheetVal.empty = 1 ∨
      normalizeVal SheetVal.empty = 2) ∧
    (normalizeVal (SheetVal.text "yes") = -2 ∨ normalizeVal (SheetVal.text "yes") = -1 ∨
      normalizeVal (SheetVal.text "yes") = 0 ∨ normalizeVal (SheetVal.text "yes") = 1 ∨
      normalizeVal (SheetVal.text "yes") = 2) ∧
    (normalizeVal (SheetVal.num (-2)) = -2 ∨ normalizeVal (SheetVal.num (-2)) = -1 ∨
      normalizeVal (SheetVal.num (-2)) = 0 ∨ normalizeVal (SheetVal.num (-2)) = 1 ∨
      normalizeVal (SheetVal.num (-2)) = 2) :=
  ⟨claim8_amended SheetVal.empty (Or.inl rfl),
   claim8_amended (SheetVal.text "yes") (Or.inr (Or.inl ⟨"yes", rfl, by decide⟩)),
   claim8_amended (SheetVal.num (-2)) (Or.inr (Or.inr ⟨-2, rfl, by decide⟩))⟩

theorem lookupW_append (w1 w2 : List Write) (k : Nat) :
    lookupW (w1 ++ w2) k = (lookupW w1 k).or (lookupW w2 k) := by
  unfold lookupW
  rw [List.find?_append]
  cases List.find? (fun w => w.colIdx == k) w1 <;> simp

theorem lookupW_none (ws : List Write) (k : Nat) (h : ∀ w ∈ ws, w.colIdx ≠ k) :
    lookupW ws k = none := by
  unfold lookupW
  rw [List.find?_eq_none.mpr]
  · rfl
  · intro w hw
    simpa using h w hw

theorem updD_of_none (ws : List Write) (d : DCell) (h : lookupW ws d.colIdx = none) :
    updD ws d = d := by
  unfold updD
  rw [h]

theorem updD_congr (ws ws' : List Write) (d : DCell)
    (h : lookupW ws d.colIdx = lookupW ws' d.colIdx) : updD ws d = updD ws' d := by
  unfold updD
  rw [h]

theorem diffFromInt_false (v : SheetVal) (k : Int) (h : diffFromInt v k = false)
    (hk : k ≠ 0) : v = SheetVal.num k := by
  cases v with
  | empty => simp [diffFromInt] at h; omega
  | num n => simp [diffFromInt] at h; rw [h]
  | text s => simp [diffFromInt] at h

theorem pastAssign_mem (fn : Nat) (l : List DCell) :
    ∀ w ∈ pastAssign fn l,
      (∃ d ∈ l, w.colIdx = d.colIdx ∧ diffFromInt d.val w.val = true) ∧
        (w.val = -1 ∨ w.val = -2) := by
  induction l generalizing fn with
  | nil => intro w hw; exact absurd hw (List.not_mem_nil w)
  | cons d rest ih =>
    intro w hw
    unfold pastAssign at hw
    rcases List.mem_append.mp hw with h | h
    · by_cases hd : diffFromInt d.val (if fn ≠ 0 then -1 else -2) = true
      · rw [if_pos hd] at h
        rcases List.mem_singleton.mp h with rfl
        refine ⟨⟨d, List.mem_cons_self d rest, rfl, hd⟩, ?_⟩
        by_cases hfn : fn ≠ 0 <;> simp [hfn]
      · rw [if_neg hd] at h
        exact absurd h (List.not_mem_nil w)
    · obtain ⟨⟨d', hd', hcol, hdiff⟩, hval⟩ := ih (fn - 1) w h
      exact ⟨⟨d', List.mem_cons_of_mem d hd', hcol, hdiff⟩, hval⟩

theorem pastAssign_post (fn : Nat) (l : List DCell)
    (hnd : (l.map DCell.colIdx).Nodup) :
    l.map (updD (pastAssign fn l)) = assignVals fn l := by
  induction l generalizing fn with
  | nil => rfl
  | cons d rest ih =>
    have hnd' : (rest.map DCell.colIdx).Nodup := (List.nodup_cons.mp hnd).2
    have hdni : d.colIdx ∉ rest.map DCell.colIdx := (List.nodup_cons.mp hnd).1
    have hrest_none : lookupW (pastAssign (fn - 1) rest) d.colIdx = none := by
      apply lookupW_none
      intro w hw
      obtain ⟨⟨d', hd', hcol, _⟩, _⟩ := pastAssign_mem (fn - 1) rest w hw
      intro hcc
      apply hdni
      rw [show DCell.colIdx d = d'.colIdx by rw [← hcc, hcol]]
      exact List.mem_map_of_mem DCell.colIdx hd'
    have hstep : pastAssign fn (d :: rest) =
        (if diffFromInt d.val (if fn ≠ 0 then -1 else -2) then
          [⟨d.colIdx, if fn ≠ 0 then -1 else -2⟩] else []) ++ pastAssign (fn - 1) rest := rfl
    rw [List.map_cons, hstep]
    have hhead : updD ((if diffFromInt d.val (if fn ≠ 0 then -1 else -2) then
        [⟨d.colIdx, if fn ≠ 0 then -1 else -2⟩] else []) ++ pastAssign (fn - 1) rest) d =
        { d with val := SheetVal.num (if fn ≠ 0 then -1 else -2) } := by
      by_cases hd : diffFromInt d.val (if fn ≠ 0 then -1 else -2) = true
      · rw [if_pos hd]
        unfold updD
        rw [lookupW_append]
        have : lookupW [Write.mk d.colIdx (if fn ≠ 0 then -1 else -2)] d.colIdx =
            some (if fn ≠ 0 then -1 else -2) := by
          unfold lookupW
          simp [List.find?]
        rw [this]
        rfl
      · rw [if_neg hd]
        rw [List.nil_append]
        rw [updD_of_none _ _ hrest_none]
        have hv : d.val = SheetVal.num (if fn ≠ 0 then -1 else -2) := by
          apply diffFromInt_false _ _ (by simpa using hd)
          by_cases hfn : fn ≠ 0 <;> simp [hfn]
        cases d with
        | mk c v dt =>
          rw [show v = SheetVal.num (if fn ≠ 0 then -1 else -2) from hv]
    rw [hhead]
    have htail : rest.map (updD ((if diffFromInt d.val (if fn ≠ 0 then -1 else -2) then
        [⟨d.colIdx, if fn ≠ 0 then -1 else -2⟩] else []) ++ pastAssign (fn - 1) rest)) =
        rest.map (updD (pastAssign (fn - 1) rest)) := by
      apply List.map_congr_left
      intro x hx
      apply updD_congr
      rw [lookupW_append]
      have hxcol : x.colIdx ≠ d.colIdx := by
        intro hcc
        exact hdni (hcc ▸ List.mem_map_of_mem DCell.colIdx hx)
      have : lookupW (if diffFromInt d.val (if fn ≠ 0 then -1 else -2) then
          [Write.mk d.colIdx (if fn ≠ 0 then -1 else -2)] else []) x.colIdx = none := by
        apply lookupW_none
        intro w hw
        by_cases hd : diffFromInt d.val (if fn ≠ 0 then -1 else -2) = true
        · rw [if_pos hd] at hw
          rcases List.mem_singleton.mp hw with rfl
          simpa using fun hcc => hxcol hcc.symm
        · rw [if_neg hd] at hw
          exact absurd hw (List.not_mem_nil w)
      rw [this]
      rfl
    rw [htail, ih (fn - 1) hnd']
    rfl

theorem assignVals_vals (fn : Nat) (l : List DCell) :
    ∀ x ∈ assignVals fn l, x.val = SheetVal.num (-1) ∨ x.val = SheetVal.num (-2) := by
  induction l generalizing fn with
  | nil => intro x hx; exact absurd hx (List.not_mem_nil x)
  | cons d rest ih =>
    intro x hx
    unfold assignVals at hx
    rcases List.mem_cons.mp hx with rfl | h
    · by_cases hfn : fn ≠ 0 <;> simp [hfn]
    · exact ih (fn - 1) x h

theorem assignVals_count (fn : Nat) (l : List DCell) :
    (assignVals fn l).countP (fun d => decide (d.val = SheetVal.num (-1))) =
      min fn l.length := by
  induction l generalizing fn with
  | nil => simp [assignVals]
  | cons d rest ih =>
    unfold assignVals
    by_cases hfn : fn = 0
    · subst hfn
      rw [List.countP_cons_of_neg _ _ (by simp)]
      rw [ih 0]
      simp
    · rw [List.countP_cons_of_pos _ _ (by simp [hfn])]
      rw [ih (fn - 1)]
      simp only [List.length_cons]
      omega

theorem doneAgree (days : List DCell) (hok : ∀ d ∈ days, ValOk d.val) :
    (days.filter fun d => looseDone d.val).length =
      days.countP fun d => decide (d.val = SheetVal.num 1 ∨ d.val = SheetVal.num 2) := by
  rw [← List.countP_eq_length_filter]
  apply List.countP_congr
  intro d hd
  by_cases h : looseDone d.val = true
  · rcases hok d hd h with h1 | h1 <;> rw [h1] <;> decide
  · have h2 : d.val ≠ SheetVal.num 1 ∧ d.val ≠ SheetVal.num 2 := by
      constructor <;> intro hv <;> rw [hv] at h <;> exact h (by decide)
    have h3 : looseDone d.val = false := by simpa using h
    simp [h3, h2.1, h2.2]

theorem processPeriod_past_eq (sorted days : List DCell) (target : Nat) (today : Z)
    (ty : PType) (hpast : isPeriodStrictlyPast (lastDateOf days) today ty = true) :
    processPeriodHabitSimple sorted days target today ty =
      pastAssign (target - (days.filter fun d => looseDone d.val).length) sorted := by
  unfold processPeriodHabitSimple
  rw [hpast]
  rfl

theorem processPeriod_open_eq (sorted days : List DCell) (target : Nat) (today : Z)
    (ty : PType) (hopen : isPeriodStrictlyPast (lastDateOf days) today ty = false) :
    processPeriodHabitSimple sorted days target today ty =
      ongoingWrites days target today := by
  unfold processPeriodHabitSimple
  rw [hopen]
  rfl

theorem updD_nil (d : DCell) : updD [] d = d := rfl

theorem flushB_map (ws : List Write) (cur : Option Bucket) :
    flushB (cur.map (bUpd ws)) = (flushB cur).map (bUpd ws) := by
  cases cur <;> rfl

theorem updD_mk (ws : List Write) (cIdx : Nat) (v : SheetVal) (z : Z) :
    (⟨cIdx, match lookupW ws cIdx with | some n => SheetVal.num n | none => v, z⟩ : DCell) =
      updD ws ⟨cIdx, v, z⟩ := by
  unfold updD
  cases lookupW ws cIdx <;> rfl

theorem bUpd_key (ws : List Write) (b : Bucket) : (bUpd ws b).key = b.key := rfl

theorem bUpd_type (ws : List Write) (b : Bucket) : (bUpd ws b).type = b.type := rfl

/-- Bucketing commutes with applying a write list to the row: the loop's
decisions depend only on dates and resolved rules, so the buckets of the
written-back row are the original buckets with updated member values. -/
theorem bucketsAux_apply (hist : Option (List Snap)) (live : String) (ws : List Write)
    (cells : List (Option Z × SheetVal)) :
    ∀ (c : Nat) (cur : Option Bucket),
    bucketsAux hist live c (applyRowAux ws c cells) (cur.map (bUpd ws)) =
      (bucketsAux hist live c cells cur).map (bUpd ws) := by
  induction cells with
  | nil =>
    intro c cur
    simp only [applyRowAux, bucketsAux]
    exact flushB_map ws cur
  | cons p rest ih =>
    intro c cur
    obtain ⟨od, v⟩ := p
    cases od with
    | none =>
      simp only [applyRowAux, bucketsAux]
      exact ih (c + 1) cur
    | some z =>
      simp only [applyRowAux, bucketsAux]
      cases hr : getTargetForDate hist live z with
      | none =>
        simp only [hr, List.map_append]
        rw [flushB_map ws cur]
        have h0 := ih (c + 1) none
        simp only [Option.map_none'] at h0
        rw [h0]
      | some rule =>
        simp only [hr]
        cases cur with
        | none =>
          simp only [Option.map_none']
          have h0 := ih (c + 1)
            (some ⟨rule.type, keyFor rule.type z, rule.target, [⟨c + 1, v, z⟩]⟩)
          simp only [Option.map_some'] at h0
          rw [← h0]
          congr 1
          simp only [bUpd, List.map_cons, List.map_nil]
          rw [updD_mk]
        | some b =>
          obtain ⟨bty, bkey, btgt, bdays⟩ := b
          simp only [Option.map_some', bUpd]
          by_cases hm : bkey = keyFor rule.type z ∧ bty = rule.type
          · rw [if_pos hm, if_pos hm]
            have h0 := ih (c + 1)
              (some ⟨bty, bkey, rule.target, bdays ++ [⟨c + 1, v, z⟩]⟩)
            simp only [Option.map_some', bUpd] at h0
            rw [← h0]
            congr 2
            simp only [List.map_append, List.map_cons, List.map_nil]
            rw [updD_mk]
          · rw [if_neg hm, if_neg hm]
            have h0 := ih (c + 1)
              (some ⟨rule.type, keyFor rule.type z, rule.target, [⟨c + 1, v, z⟩]⟩)
            simp only [Option.map_some', bUpd] at h0
            simp only [List.map_cons]
            rw [← h0]
            congr 3
            simp only [List.map_cons, List.map_nil]
            rw [updD_mk]

/-- Every member cell of a bucket produced by the grouping loop comes
from the open bucket or from the dated cells still to be scanned, in
order. -/
theorem bDays_sublist (hist : Option (List Snap)) (live : String)
    (cells : List (Option Z × SheetVal)) :
    ∀ (c : Nat) (cur : Option Bucket),
    (bDaysOf (bucketsAux hist live c cells cur)).Sublist
      (curDays cur ++ dcellsAux c cells) := by
  induction cells with
  | nil =>
    intro c cur
    cases cur with
    | none => simp [bucketsAux, flushB, bDaysOf]
    | some b => simp [bucketsAux, flushB, bDaysOf, curDays, dcellsAux]
  | cons p rest ih =>
    intro c cur
    obtain ⟨od, v⟩ := p
    cases od with
    | none =>
      simpa [bucketsAux, dcellsAux] using ih (c + 1) cur
    | some z =>
      simp only [bucketsAux, dcellsAux]
      cases hr : getTargetForDate hist live z with
      | none =>
        simp only [hr]
        have h0 := ih (c + 1) none
        simp only [curDays, List.nil_append] at h0
        cases cur with
        | none =>
          simp only [flushB, List.nil_append, bDaysOf, curDays]
          exact h0.cons _
        | some b =>
          simp only [flushB, bDaysOf, curDays, List.singleton_append, List.cons_append,
            List.nil_append]
          exact List.Sublist.append_left (h0.cons _) b.days
      | some rule =>
        simp only [hr]
        cases cur with
        | none =>
          have h0 := ih (c + 1)
            (some ⟨rule.type, keyFor rule.type z, rule.target, [⟨c + 1, v, z⟩]⟩)
          simp only [curDays, List.singleton_append] at h0
          simpa [curDays] using h0
        | some b =>
          dsimp only
          by_cases hm : b.key = keyFor rule.type z ∧ b.type = rule.type
          · rw [if_pos hm]
            have h0 := ih (c + 1)
              (some { b with target := rule.target, days := b.days ++ [⟨c + 1, v, z⟩] })
            simp only [curDays] at h0
            simpa [curDays, List.append_assoc] using h0
          · rw [if_neg hm]
            have h0 := ih (c + 1)
              (some ⟨rule.type, keyFor rule.type z, rule.target, [⟨c + 1, v, z⟩]⟩)
            simp only [curDays, List.singleton_append] at h0
            simp only [bDaysOf, curDays]
            exact List.Sublist.append_left h0 b.days

theorem dcellsAux_colIdx_gt (cells : List (Option Z × SheetVal)) :
    ∀ c, ∀ d ∈ dcellsAux c cells, c < d.colIdx := by
  induction cells with
  | nil => intro c d hd; exact absurd hd (List.not_mem_nil d)
  | cons p rest ih =>
    intro c d hd
    obtain ⟨od, v⟩ := p
    cases od with
    | none => exact Nat.lt_of_succ_lt (ih (c + 1) d hd)
    | some z =>
      rcases List.mem_cons.mp hd with rfl | h
      · exact Nat.lt_succ_self c
      · exact Nat.lt_of_succ_lt (ih (c + 1) d h)

theorem dcellsAux_pairwise (cells : List (Option Z × SheetVal)) :
    ∀ c, ((dcellsAux c cells).map DCell.colIdx).Pairwise (· < ·) := by
  induction cells with
  | nil => intro c; simp [dcellsAux]
  | cons p rest ih =>
    intro c
    obtain ⟨od, v⟩ := p
    cases od with
    | none => exact ih (c + 1)
    | some z =>
      simp only [dcellsAux, List.map_cons, List.pairwise_cons]
      refine ⟨?_, ih (c + 1)⟩
      intro k hk
      rcases List.mem_map.mp hk with ⟨d, hd, rfl⟩
      exact dcellsAux_colIdx_gt rest (c + 1) d hd

theorem dcellsAux_get (cells : List (Option Z × SheetVal)) :
    ∀ c, ∀ d ∈ dcellsAux c cells,
      cells.get? (d.colIdx - c - 1) = some (some d.date, d.val) := by
  induction cells with
  | nil => intro c d hd; exact absurd hd (List.not_mem_nil d)
  | cons p rest ih =>
    intro c d hd
    obtain ⟨od, v⟩ := p
    cases od with
    | none =>
      have hgt := dcellsAux_colIdx_gt rest (c + 1) d hd
      have : d.colIdx - c - 1 = (d.colIdx - (c + 1) - 1) + 1 := by omega
      rw [this]
      exact ih (c + 1) d hd
    | some z =>
      rcases List.mem_cons.mp hd with rfl | h
      · simp
      · have hgt := dcellsAux_colIdx_gt rest (c + 1) d h
        have : d.colIdx - c - 1 = (d.colIdx - (c + 1) - 1) + 1 := by omega
        rw [this]
        exact ih (c + 1) d h

theorem dcellsAux_val_mem (cells : List (Option Z × SheetVal)) :
    ∀ c, ∀ d ∈ dcellsAux c cells, (some d.date, d.val) ∈ cells := by
  induction cells with
  | nil => intro c d hd; exact absurd hd (List.not_mem_nil d)
  | cons p rest ih =>
    intro c d hd
    obtain ⟨od, v⟩ := p
    cases od with
    | none => exact List.mem_cons_of_mem _ (ih (c + 1) d hd)
    | some z =>
      rcases List.mem_cons.mp hd with rfl | h
      · exact List.mem_cons_self _ _
      · exact List.mem_cons_of_mem _ (ih (c + 1) d h)

/-- Distinct sheet columns across all member cells of a row's buckets. -/
theorem bDays_pairwise (hist : Option (List Snap)) (live : String)
    (cells : List (Option Z × SheetVal)) :
    ((bDaysOf (bucketsOf hist live cells)).map DCell.colIdx).Pairwise (· < ·) := by
  have hsub := bDays_sublist hist live cells 2 none
  simp only [curDays, List.nil_append] at hsub
  exact (dcellsAux_pairwise cells 2).sublist (hsub.map DCell.colIdx)

theorem bDays_mem (hist : Option (List Snap)) (live : String)
    (cells : List (Option Z × SheetVal)) :
    ∀ d ∈ bDaysOf (bucketsOf hist live cells), d ∈ dcellsOf cells := by
  have hsub := bDays_sublist hist live cells 2 none
  simp only [curDays, List.nil_append] at hsub
  exact fun d hd => hsub.subset hd

theorem ongoingWrites_mem (days : List DCell) (target : Nat) (today : Z) :
    ∀ w ∈ ongoingWrites days target today,
      ∃ d ∈ days, w.colIdx = d.colIdx ∧ strictNonDone d.val = true ∧ w.val = -2 := by
  intro w hw
  unfold ongoingWrites at hw
  by_cases hc : target ≤ (days.filter fun d => looseDone d.val).length +
      (days.filter fun d => today ≤ d.date).length
  · rw [if_pos hc] at hw
    rcases List.mem_filterMap.mp hw with ⟨d, hd, hfd⟩
    by_cases hcond : d.date < today ∧ (d.val = SheetVal.empty ∨ d.val = SheetVal.num 0)
    · rw [if_pos hcond] at hfd
      rcases Option.some.inj hfd with rfl
      refine ⟨d, hd, rfl, ?_, rfl⟩
      rcases hcond.2 with h | h <;> rw [h] <;> decide
    · rw [if_neg hcond] at hfd
      exact absurd hfd (Option.noConfusion)
  · rw [if_neg hc] at hw
    exact absurd hw (List.not_mem_nil w)

theorem daily_mem (days : List DCell) (today : Z) :
    ∀ w ∈ processDailyHabitSimple days today,
      ∃ d ∈ days, w.colIdx = d.colIdx ∧ strictNonDone d.val = true ∧ w.val = -1 := by
  intro w hw
  rcases List.mem_filterMap.mp hw with ⟨d, hd, hfd⟩
  by_cases hcond : d.date < today ∧
      (d.val = SheetVal.empty ∨ d.val = SheetVal.num 0 ∨ d.val = SheetVal.num (-2))
  · rw [if_pos hcond] at hfd
    rcases Option.some.inj hfd with rfl
    refine ⟨d, hd, rfl, ?_, rfl⟩
    rcases hcond.2 with h | h | h <;> rw [h] <;> decide
  · rw [if_neg hcond] at hfd
    exact absurd hfd (Option.noConfusion)

theorem strictNonDone_of_mem_nonDone (days : List DCell) :
    ∀ d ∈ nonDoneOf days, d ∈ days ∧ strictNonDone d.val = true := by
  intro d hd
  have := List.mem_filter.mp hd
  exact ⟨this.1, this.2⟩

/-- Every write a bucket flush emits targets one of the bucket's member
cells, and that cell is not an explicit completion (`!== 1 && !== 2`). -/
theorem flushWrites_targets (tie : List DCell → List DCell) (today : Z) (b : Bucket)
    (hperm : List.Perm (tie (nonDoneOf b.days)) (nonDoneOf b.days)) :
    ∀ w ∈ flushWrites tie today b,
      ∃ d ∈ b.days, w.colIdx = d.colIdx ∧ strictNonDone d.val = true := by
  intro w hw
  cases hty : b.type with
  | d =>
    rw [flushWrites, hty] at hw
    obtain ⟨d, hd, hcol, hsnd, _⟩ := daily_mem b.days today w hw
    exact ⟨d, hd, hcol, hsnd⟩
  | w =>
    rw [flushWrites, hty] at hw
    unfold processPeriodHabitSimple at hw
    by_cases hp : isPeriodStrictlyPast (lastDateOf b.days) today PType.w = true
    · rw [hp] at hw
      simp only [if_pos] at hw
      obtain ⟨⟨d, hd, hcol, _⟩, _⟩ := pastAssign_mem _ _ w hw
      have hd2 := strictNonDone_of_mem_nonDone b.days d (hperm.subset hd)
      exact ⟨d, hd2.1, hcol, hd2.2⟩
    · rw [Bool.not_eq_true] at hp
      rw [hp] at hw
      simp only [Bool.false_eq_true, if_false] at hw
      obtain ⟨d, hd, hcol, hsnd, _⟩ := ongoingWrites_mem b.days b.target today w hw
      exact ⟨d, hd, hcol, hsnd⟩
  | m =>
    rw [flushWrites, hty] at hw
    unfold processPeriodHabitSimple at hw
    by_cases hp : isPeriodStrictlyPast (lastDateOf b.days) today PType.m = true
    · rw [hp] at hw
      simp only [if_pos] at hw
      obtain ⟨⟨d, hd, hcol, _⟩, _⟩ := pastAssign_mem _ _ w hw
      have hd2 := strictNonDone_of_mem_nonDone b.days d (hperm.subset hd)
      exact ⟨d, hd2.1, hcol, hd2.2⟩
    · rw [Bool.not_eq_true] at hp
      rw [hp] at hw
      simp only [Bool.false_eq_true, if_false] at hw
      obtain ⟨d, hd, hcol, hsnd, _⟩ := ongoingWrites_mem b.days b.target today w hw
      exact ⟨d, hd, hcol, hsnd⟩

theorem mem_bDaysOf : ∀ (bs : List Bucket), ∀ b ∈ bs, ∀ d ∈ b.days, d ∈ bDaysOf bs := by
  intro bs
  induction bs with
  | nil => intro b hb; cases hb
  | cons b0 rest ih =>
    intro b hb d hd
    show d ∈ b0.days ++ bDaysOf rest
    rcases List.mem_cons.mp hb with rfl | hbr
    · exact List.mem_append.mpr (Or.inl hd)
    · exact List.mem_append.mpr (Or.inr (ih b hbr d hd))

theorem flushAll_cons (tie : Nat → List DCell → List DCell) (today : Z) (i : Nat)
    (b : Bucket) (rest : List Bucket) :
    flushAll tie today i (b :: rest) =
      flushWrites (tie i) today b ++ flushAll tie today (i + 1) rest := rfl

theorem flushAll_targets (tie : Nat → List DCell → List DCell) (today : Z)
    (hv : ValidTie1 tie) :
    ∀ (bs : List Bucket) (i : Nat), ∀ w ∈ flushAll tie today i bs,
      ∃ d ∈ bDaysOf bs, w.colIdx = d.colIdx ∧ strictNonDone d.val = true := by
  intro bs
  induction bs with
  | nil => intro i w hw; exact absurd hw (List.not_mem_nil w)
  | cons b rest ih =>
    intro i w hw
    rw [flushAll_cons] at hw
    rcases List.mem_append.mp hw with h | h
    · obtain ⟨d, hd, hcol, hsnd⟩ := flushWrites_targets (tie i) today b (hv i _).1 w h
      exact ⟨d, mem_bDaysOf (b :: rest) b (List.mem_cons_self b rest) d hd, hcol, hsnd⟩
    · obtain ⟨d, hd, hcol, hsnd⟩ := ih (i + 1) w h
      refine ⟨d, ?_, hcol, hsnd⟩
      show d ∈ b.days ++ bDaysOf rest
      exact List.mem_append.mpr (Or.inr hd)

/-- Decomposition of the column ordering of `b0.days ++ bDaysOf rest`. -/
theorem bDays_pairwise_decomp (b0 : Bucket) (rest : List Bucket)
    (hpw : ((bDaysOf (b0 :: rest)).map DCell.colIdx).Pairwise (· < ·)) :
    (b0.days.map DCell.colIdx).Pairwise (· < ·) ∧
    ((bDaysOf rest).map DCell.colIdx).Pairwise (· < ·) ∧
    ∀ x ∈ b0.days, ∀ y ∈ bDaysOf rest, x.colIdx < y.colIdx := by
  have h0 : (bDaysOf (b0 :: rest)).map DCell.colIdx =
      b0.days.map DCell.colIdx ++ (bDaysOf rest).map DCell.colIdx := by
    show (b0.days ++ bDaysOf rest).map DCell.colIdx = _
    rw [List.map_append]
  rw [h0] at hpw
  obtain ⟨h1, h2, h3⟩ := List.pairwise_append.mp hpw
  refine ⟨h1, h2, ?_⟩
  intro x hx y hy
  exact h3 x.colIdx (List.mem_map_of_mem DCell.colIdx hx)
    y.colIdx (List.mem_map_of_mem DCell.colIdx hy)

/-- Restricted to the member cells of one of its buckets, the write list
of a whole row pass looks up exactly like that bucket's own flush, for
some valid tie-break outcome of that flush. -/
theorem flushAll_frame (tie : Nat → List DCell → List DCell) (today : Z)
    (hv : ValidTie1 tie) :
    ∀ (bs : List Bucket) (i : Nat),
      ((bDaysOf bs).map DCell.colIdx).Pairwise (· < ·) →
      ∀ b ∈ bs, ∃ t : List DCell → List DCell,
        List.Perm (t (nonDoneOf b.days)) (nonDoneOf b.days) ∧
        ∀ d ∈ b.days, lookupW (flushAll tie today i bs) d.colIdx =
          lookupW (flushWrites t today b) d.colIdx := by
  intro bs
  induction bs with
  | nil => intro i _ b hb; cases hb
  | cons b0 rest ih =>
    intro i hpw b hb
    obtain ⟨hpw1, hpw2, hcross⟩ := bDays_pairwise_decomp b0 rest hpw
    rcases List.mem_cons.mp hb with rfl | hbr
    · refine ⟨tie i, (hv i _).1, ?_⟩
      intro d hd
      rw [flushAll_cons, lookupW_append]
      have hnone : lookupW (flushAll tie today (i + 1) rest) d.colIdx = none := by
        apply lookupW_none
        intro w hw hcc
        obtain ⟨d', hd', hcol, _⟩ := flushAll_targets tie today hv rest (i + 1) w hw
        have := hcross d hd d' hd'
        omega
      rw [hnone]
      cases lookupW (flushWrites (tie i) today b) d.colIdx <;> rfl
    · obtain ⟨t, hperm, hl⟩ := ih (i + 1) hpw2 b hbr
      refine ⟨t, hperm, ?_⟩
      intro d hd
      rw [flushAll_cons, lookupW_append]
      have hnone : lookupW (flushWrites (tie i) today b0) d.colIdx = none := by
        apply lookupW_none
        intro w hw hcc
        obtain ⟨d', hd', hcol, _⟩ := flushWrites_targets (tie i) today b0 (hv i _).1 w hw
        have hdr : d ∈ bDaysOf rest := mem_bDaysOf rest b hbr d hd
        have := hcross d' hd' d hdr
        omega
      rw [hnone, hl d hd]
      cases lookupW (flushWrites t today b) d.colIdx <;> rfl

theorem updD_date (ws : List Write) (d : DCell) : (updD ws d).date = d.date := by
  unfold updD
  cases lookupW ws d.colIdx <;> rfl

theorem updD_colIdx (ws : List Write) (d : DCell) : (updD ws d).colIdx = d.colIdx := by
  unfold updD
  cases lookupW ws d.colIdx <;> rfl

theorem map_updD_drop (a ws : List Write) (l : List DCell)
    (h : ∀ w ∈ a, ∀ d ∈ l, w.colIdx ≠ d.colIdx) :
    l.map (updD (a ++ ws)) = l.map (updD ws) := by
  apply List.map_congr_left
  intro d hd
  apply updD_congr
  rw [lookupW_append, lookupW_none a _ (fun w hw => h w hw d hd)]
  rfl

theorem strictNonDone_false_iff (v : SheetVal) :
    strictNonDone v = false ↔ v = SheetVal.num 1 ∨ v = SheetVal.num 2 := by
  unfold strictNonDone
  rw [decide_eq_false_iff_not]
  constructor
  · intro h
    by_cases h1 : v = SheetVal.num 1
    · exact Or.inl h1
    · by_cases h2 : v = SheetVal.num 2
      · exact Or.inr h2
      · exact absurd ⟨h1, h2⟩ h
  · rintro (rfl | rfl) ⟨h1, h2⟩
    · exact h1 rfl
    · exact h2 rfl

theorem daily_step (d : DCell) (rest : List DCell) (today : Z) :
    processDailyHabitSimple (d :: rest) today =
      (if d.date < today ∧ (d.val = SheetVal.empty ∨ d.val = SheetVal.num 0 ∨
          d.val = SheetVal.num (-2))
       then [⟨d.colIdx, -1⟩] else []) ++ processDailyHabitSimple rest today := by
  unfold processDailyHabitSimple
  rw [List.filterMap_cons]
  by_cases h : d.date < today ∧ (d.val = SheetVal.empty ∨ d.val = SheetVal.num 0 ∨
      d.val = SheetVal.num (-2)) <;> simp [h]

theorem daily_post (days : List DCell) (today : Z)
    (hnd : (days.map DCell.colIdx).Nodup) :
    days.map (updD (processDailyHabitSimple days today)) =
      days.map (dailyPostVal today) := by
  induction days with
  | nil => rfl
  | cons d rest ih =>
    have hnd' := (List.nodup_cons.mp hnd).2
    have hdni := (List.nodup_cons.mp hnd).1
    have hrest_none : lookupW (processDailyHabitSimple rest today) d.colIdx = none := by
      apply lookupW_none
      intro w hw hcc
      obtain ⟨d', hd', hcol, _, _⟩ := daily_mem rest today w hw
      apply hdni
      rw [show DCell.colIdx d = d'.colIdx by rw [← hcc, hcol]]
      exact List.mem_map_of_mem DCell.colIdx hd'
    rw [daily_step, List.map_cons, List.map_cons]
    by_cases h : d.date < today ∧ (d.val = SheetVal.empty ∨ d.val = SheetVal.num 0 ∨
        d.val = SheetVal.num (-2))
    · rw [if_pos h]
      have hhead : updD ([Write.mk d.colIdx (-1)] ++ processDailyHabitSimple rest today) d =
          dailyPostVal today d := by
        unfold updD
        rw [lookupW_append]
        rw [show lookupW [Write.mk d.colIdx (-1)] d.colIdx = some (-1) by
          unfold lookupW; simp [List.find?]]
        rw [dailyPostVal, if_pos h]
        rfl
      have htail : rest.map (updD ([Write.mk d.colIdx (-1)] ++
          processDailyHabitSimple rest today)) =
          rest.map (updD (processDailyHabitSimple rest today)) := by
        apply map_updD_drop
        intro w hw x hx hcc
        rcases List.mem_singleton.mp hw with rfl
        apply hdni
        rw [show DCell.colIdx d = x.colIdx from hcc]
        exact List.mem_map_of_mem DCell.colIdx hx
      rw [hhead, htail, ih hnd']
    · rw [if_neg h, List.nil_append]
      have hhead : updD (processDailyHabitSimple rest today) d = dailyPostVal today d := by
        rw [updD_of_none _ _ hrest_none, dailyPostVal, if_neg h]
      rw [hhead, ih hnd']

theorem daily_idem (days : List DCell) (today : Z)
    (hnd : (days.map DCell.colIdx).Nodup) :
    processDailyHabitSimple (days.map (updD (processDailyHabitSimple days today)))
      today = [] := by
  rw [daily_post days today hnd]
  unfold processDailyHabitSimple
  rw [List.filterMap_map]
  apply List.filterMap_eq_nil_iff.mpr
  intro d _
  simp only [Function.comp_apply]
  unfold dailyPostVal
  by_cases h : d.date < today ∧ (d.val = SheetVal.empty ∨ d.val = SheetVal.num 0 ∨
      d.val = SheetVal.num (-2))
  · rw [if_pos h]
    simp
  · rw [if_neg h]
    rw [if_neg h]

theorem excuse_mem (today : Z) (l : List DCell) :
    ∀ w ∈ excuseWrites today l, ∃ d ∈ l, w.colIdx = d.colIdx ∧ w.val = -2 := by
  intro w hw
  rcases List.mem_filterMap.mp hw with ⟨d, hd, hfd⟩
  by_cases h : d.date < today ∧ (d.val = SheetVal.empty ∨ d.val = SheetVal.num 0)
  · rw [if_pos h] at hfd
    rcases Option.some.inj hfd with rfl
    exact ⟨d, hd, rfl, rfl⟩
  · rw [if_neg h] at hfd
    exact absurd hfd (Option.noConfusion)

theorem excuse_post (today : Z) (days : List DCell)
    (hnd : (days.map DCell.colIdx).Nodup) :
    days.map (updD (excuseWrites today days)) = days.map (ongoingPostVal today) := by
  induction days with
  | nil => rfl
  | cons d rest ih =>
    have hnd' := (List.nodup_cons.mp hnd).2
    have hdni := (List.nodup_cons.mp hnd).1
    have hrest_none : lookupW (excuseWrites today rest) d.colIdx = none := by
      apply lookupW_none
      intro w hw hcc
      obtain ⟨d', hd', hcol, _⟩ := excuse_mem today rest w hw
      apply hdni
      rw [show DCell.colIdx d = d'.colIdx by rw [← hcc, hcol]]
      exact List.mem_map_of_mem DCell.colIdx hd'
    have hstep : excuseWrites today (d :: rest) =
        (if d.date < today ∧ (d.val = SheetVal.empty ∨ d.val = SheetVal.num 0)
         then [⟨d.colIdx, -2⟩] else []) ++ excuseWrites today rest := by
      unfold excuseWrites
      rw [List.filterMap_cons]
      by_cases h : d.date < today ∧ (d.val = SheetVal.empty ∨ d.val = SheetVal.num 0) <;>
        simp [h]
    rw [hstep, List.map_cons, List.map_cons]
    by_cases h : d.date < today ∧ (d.val = SheetVal.empty ∨ d.val = SheetVal.num 0)
    · rw [if_pos h]
      have hhead : updD ([Write.mk d.colIdx (-2)] ++ excuseWrites today rest) d =
          ongoingPostVal today d := by
        unfold updD
        rw [lookupW_append]
        rw [show lookupW [Write.mk d.colIdx (-2)] d.colIdx = some (-2) by
          unfold lookupW; simp [List.find?]]
        rw [ongoingPostVal, if_pos h]
        rfl
      have htail : rest.map (updD ([Write.mk d.colIdx (-2)] ++ excuseWrites today rest)) =
          rest.map (updD (excuseWrites today rest)) := by
        apply map_updD_drop
        intro w hw x hx hcc
        rcases List.mem_singleton.mp hw with rfl
        apply hdni
        rw [show DCell.colIdx d = x.colIdx from hcc]
        exact List.mem_map_of_mem DCell.colIdx hx
      rw [hhead, htail, ih hnd']
    · rw [if_neg h, List.nil_append]
      have hhead : updD (excuseWrites today rest) d = ongoingPostVal today d := by
        rw [updD_of_none _ _ hrest_none, ongoingPostVal, if_neg h]
      rw [hhead, ih hnd']

theorem ongoingPostVal_date (today : Z) (d : DCell) :
    (ongoingPostVal today d).date = d.date := by
  unfold ongoingPostVal
  by_cases h : d.date < today ∧ (d.val = SheetVal.empty ∨ d.val = SheetVal.num 0) <;>
    simp [h]

theorem ongoingPostVal_looseDone (today : Z) (d : DCell) :
    looseDone ((ongoingPostVal today d).val) = looseDone d.val := by
  unfold ongoingPostVal
  by_cases h : d.date < today ∧ (d.val = SheetVal.empty ∨ d.val = SheetVal.num 0)
  · rw [if_pos h]
    show looseDone (SheetVal.num (-2)) = looseDone d.val
    rcases h.2 with hv | hv <;> rw [hv] <;> decide
  · rw [if_neg h]

theorem ongoingWrites_pos (days : List DCell) (target : Nat) (today : Z)
    (hc : target ≤ (days.filter fun d => looseDone d.val).length +
      (days.filter fun d => today ≤ d.date).length) :
    ongoingWrites days target today = excuseWrites today days := by
  unfold ongoingWrites excuseWrites
  rw [if_pos hc]

theorem ongoingWrites_neg (days : List DCell) (target : Nat) (today : Z)
    (hc : ¬ target ≤ (days.filter fun d => looseDone d.val).length +
      (days.filter fun d => today ≤ d.date).length) :
    ongoingWrites days target today = [] := by
  unfold ongoingWrites
  rw [if_neg hc]

theorem ongoing_counts (days : List DCell) (today : Z) :
    ((days.map (ongoingPostVal today)).filter fun d => looseDone d.val).length =
      (days.filter fun d => looseDone d.val).length ∧
    ((days.map (ongoingPostVal today)).filter fun d => today ≤ d.date).length =
      (days.filter fun d => today ≤ d.date).length := by
  constructor
  · rw [← List.countP_eq_length_filter, ← List.countP_eq_length_filter, List.countP_map]
    apply List.countP_congr
    intro d _
    show looseDone ((ongoingPostVal today d).val) = true ↔ looseDone d.val = true
    rw [ongoingPostVal_looseDone]
  · rw [← List.countP_eq_length_filter, ← List.countP_eq_length_filter, List.countP_map]
    apply List.countP_congr
    intro d _
    show decide (today ≤ (ongoingPostVal today d).date) = true ↔
      decide (today ≤ d.date) = true
    rw [ongoingPostVal_date]

theorem ongoing_idem (days : List DCell) (target : Nat) (today : Z)
    (hnd : (days.map DCell.colIdx).Nodup) :
    ongoingWrites (days.map (updD (ongoingWrites days target today))) target today = [] := by
  by_cases hc : target ≤ (days.filter fun d => looseDone d.val).length +
      (days.filter fun d => today ≤ d.date).length
  · rw [ongoingWrites_pos days target today hc, excuse_post today days hnd]
    have hcounts := ongoing_counts days today
    rw [ongoingWrites_pos _ target today (by rw [hcounts.1, hcounts.2]; exact hc)]
    unfold excuseWrites
    rw [List.filterMap_map]
    apply List.filterMap_eq_nil_iff.mpr
    intro d _
    simp only [Function.comp_apply]
    unfold ongoingPostVal
    by_cases h : d.date < today ∧ (d.val = SheetVal.empty ∨ d.val = SheetVal.num 0)
    · rw [if_pos h]
      simp
    · rw [if_neg h, if_neg h]
  · rw [ongoingWrites_neg days target today hc]
    have hid : days.map (updD []) = days := by
      rw [show days.map (updD []) = days.map id from List.map_congr_left fun d _ => updD_nil d]
      exact List.map_id days
    rw [hid]
    exact ongoingWrites_neg days target today hc

theorem pastAssign_nil (fn : Nat) (l : List DCell)
    (hvals : ∀ x ∈ l, x.val = SheetVal.num (-1) ∨ x.val = SheetVal.num (-2))
    (hsorted : ScoreSorted l)
    (hcount : l.countP (fun d => decide (d.val = SheetVal.num (-1))) = min fn l.length) :
    pastAssign fn l = [] := by
  induction l generalizing fn with
  | nil => rfl
  | cons d rest ih =>
    have hvd := hvals d (List.mem_cons_self d rest)
    by_cases hfn : fn = 0
    · subst hfn
      have hd2 : d.val = SheetVal.num (-2) := by
        rcases hvd with h | h
        · exfalso
          rw [List.countP_cons_of_pos _ _ (by simp [h])] at hcount
          omega
        · exact h
      have hrest : rest.countP (fun d => decide (d.val = SheetVal.num (-1))) =
          min 0 rest.length := by
        rw [List.countP_cons_of_neg _ _ (by simp [hd2])] at hcount
        simpa using hcount
      show (if diffFromInt d.val (-2) then [Write.mk d.colIdx (-2)] else []) ++
        pastAssign 0 rest = []
      rw [if_neg (by rw [hd2]; decide), List.nil_append]
      exact ih 0 (fun x hx => hvals x (List.mem_cons_of_mem d hx))
        ((List.pairwise_cons.mp hsorted).2) hrest
    · have hd1 : d.val = SheetVal.num (-1) := by
        rcases hvd with h | h
        · exact h
        · exfalso
          have hall : ∀ x ∈ rest, x.val = SheetVal.num (-2) := by
            intro x hx
            rcases hvals x (List.mem_cons_of_mem d hx) with h1 | h1
            · exfalso
              have hs := (List.pairwise_cons.mp hsorted).1 x hx
              rw [h, h1] at hs
              revert hs
              decide
            · exact h1
          have hzero : (d :: rest).countP (fun d => decide (d.val = SheetVal.num (-1))) = 0 := by
            rw [List.countP_eq_zero]
            intro x hx
            rcases List.mem_cons.mp hx with rfl | hxr
            · simp [h]
            · simp [hall x hxr]
          rw [hzero] at hcount
          have : 0 < min fn (d :: rest).length := by
            simp only [List.length_cons]
            omega
          omega
      have hrest : rest.countP (fun d => decide (d.val = SheetVal.num (-1))) =
          min (fn - 1) rest.length := by
        rw [List.countP_cons_of_pos _ _ (by simp [hd1])] at hcount
        simp only [List.length_cons] at hcount
        omega
      have hnv : (if fn ≠ 0 then (-1 : Int) else -2) = -1 := by simp [hfn]
      show (if diffFromInt d.val (if fn ≠ 0 then -1 else -2) then
          [Write.mk d.colIdx (if fn ≠ 0 then -1 else -2)] else []) ++
        pastAssign (fn - 1) rest = []
      rw [hnv, if_neg (by rw [hd1]; decide), List.nil_append]
      exact ih (fn - 1) (fun x hx => hvals x (List.mem_cons_of_mem d hx))
        ((List.pairwise_cons.mp hsorted).2) hrest

theorem flushWrites_d (tie : List DCell → List DCell) (today : Z) (b : Bucket)
    (h : b.type = PType.d) :
    flushWrites tie today b = processDailyHabitSimple b.days today := by
  unfold flushWrites
  rw [h]

theorem flushWrites_w (tie : List DCell → List DCell) (today : Z) (b : Bucket)
    (h : b.type = PType.w) :
    flushWrites tie today b =
      processPeriodHabitSimple (tie (nonDoneOf b.days)) b.days b.target today PType.w := by
  unfold flushWrites
  rw [h]

theorem flushWrites_m (tie : List DCell → List DCell) (today : Z) (b : Bucket)
    (h : b.type = PType.m) :
    flushWrites tie today b =
      processPeriodHabitSimple (tie (nonDoneOf b.days)) b.days b.target today PType.m := by
  unfold flushWrites
  rw [h]

theorem lastDateOf_map_updD (ws : List Write) (l : List DCell) :
    lastDateOf (l.map (updD ws)) = lastDateOf l := by
  unfold lastDateOf
  rw [List.getLast?_map]
  cases l.getLast? with
  | none => rfl
  | some d => simp [updD_date]

theorem mem_nonDone_of_strict (days : List DCell) (d : DCell) (hd : d ∈ days)
    (hs : strictNonDone d.val = true) : d ∈ nonDoneOf days :=
  List.mem_filter.mpr ⟨hd, hs⟩

/-- Elapsed-period second pass writes nothing: after the first pass every
non-done cell holds `-1` or `-2` with exactly `min(needed, n)` of them at
`-1`, so any score-sorted tie-break reproduces the same assignment. -/
theorem past_idem (days : List DCell) (target : Nat) (today : Z) (ty : PType)
    (t tie2 : List DCell → List DCell)
    (hnd : (days.map DCell.colIdx).Nodup)
    (hok : ∀ d ∈ days, ValOk d.val)
    (ht : List.Perm (t (nonDoneOf days)) (nonDoneOf days))
    (h2p : ∀ l, List.Perm (tie2 l) l)
    (h2s : ∀ l, ScoreSorted (tie2 l))
    (hpast : isPeriodStrictlyPast (lastDateOf days) today ty = true) :
    processPeriodHabitSimple
      (tie2 (nonDoneOf (days.map (updD
        (processPeriodHabitSimple (t (nonDoneOf days)) days target today ty)))))
      (days.map (updD (processPeriodHabitSimple (t (nonDoneOf days)) days target today ty)))
      target today ty = [] := by
  rw [processPeriod_past_eq _ days target today ty hpast]
  set sorted1 := t (nonDoneOf days) with hs1
  set fn := target - (days.filter fun d => looseDone d.val).length with hfndef
  set own := pastAssign fn sorted1 with howndef
  have hndN : ((nonDoneOf days).map DCell.colIdx).Nodup :=
    ((List.filter_sublist days).map DCell.colIdx).nodup hnd
  have hndS : (sorted1.map DCell.colIdx).Nodup :=
    ((ht.map DCell.colIdx).nodup_iff).mpr hndN
  have hpost : sorted1.map (updD own) = assignVals fn sorted1 :=
    pastAssign_post fn sorted1 hndS
  have hown_cols : ∀ w ∈ own, ∃ d' ∈ nonDoneOf days, w.colIdx = d'.colIdx := by
    intro w hw
    obtain ⟨⟨d', hd', hcol, _⟩, _⟩ := pastAssign_mem fn sorted1 w hw
    exact ⟨d', ht.subset hd', hcol⟩
  have huntouched : ∀ d ∈ days, strictNonDone d.val = false → updD own d = d := by
    intro d hd hsf
    apply updD_of_none
    apply lookupW_none
    intro w hw hcc
    obtain ⟨d', hd', hcol⟩ := hown_cols w hw
    have hdd : d' ∈ days := (List.mem_filter.mp hd').1
    have hde : d' = d := List.inj_on_of_nodup_map hnd hdd hd (by rw [← hcol, hcc])
    have h1 := (List.mem_filter.mp hd').2
    rw [hde, hsf] at h1
    exact Bool.noConfusion h1
  have hndvals : ∀ d ∈ nonDoneOf days, (updD own d).val = SheetVal.num (-1) ∨
      (updD own d).val = SheetVal.num (-2) := by
    intro d hd
    have hd1 : d ∈ sorted1 := ht.mem_iff.mpr hd
    have hmem : updD own d ∈ sorted1.map (updD own) := List.mem_map_of_mem _ hd1
    rw [hpost] at hmem
    exact assignVals_vals fn sorted1 _ hmem
  have pointND : ∀ d ∈ days, strictNonDone ((updD own d).val) = strictNonDone d.val := by
    intro d hd
    by_cases hs : strictNonDone d.val = true
    · rw [hs]
      rcases hndvals d (mem_nonDone_of_strict days d hd hs) with h | h <;> rw [h] <;> decide
    · have hsf : strictNonDone d.val = false := by simpa using hs
      rw [huntouched d hd hsf]
  have pointLD : ∀ d ∈ days, looseDone ((updD own d).val) = looseDone d.val := by
    intro d hd
    by_cases hs : strictNonDone d.val = true
    · have hld : looseDone d.val = false := by
        by_contra hb
        have hb' : looseDone d.val = true := by simpa using hb
        rcases hok d hd hb' with h1 | h1 <;> rw [h1] at hs <;> exact absurd hs (by decide)
      rcases hndvals d (mem_nonDone_of_strict days d hd hs) with h | h <;>
        rw [h, hld] <;> decide
    · have hsf : strictNonDone d.val = false := by simpa using hs
      rw [huntouched d hd hsf]
  have hdone : ((days.map (updD own)).filter fun d => looseDone d.val).length =
      (days.filter fun d => looseDone d.val).length := by
    rw [← List.countP_eq_length_filter, ← List.countP_eq_length_filter, List.countP_map]
    apply List.countP_congr
    intro d hd
    show looseDone ((updD own d).val) = true ↔ looseDone d.val = true
    rw [pointLD d hd]
  have hndmap : nonDoneOf (days.map (updD own)) = (nonDoneOf days).map (updD own) := by
    unfold nonDoneOf
    rw [List.filter_map]
    congr 1
    apply List.filter_congr
    intro d hd
    exact pointND d hd
  have hlast : lastDateOf (days.map (updD own)) = lastDateOf days :=
    lastDateOf_map_updD own days
  rw [processPeriod_past_eq _ _ target today ty (by rw [hlast]; exact hpast)]
  rw [hdone]
  apply pastAssign_nil
  · intro x hx
    have hx1 : x ∈ nonDoneOf (days.map (updD own)) := (h2p _).subset hx
    rw [hndmap] at hx1
    rcases List.mem_map.mp hx1 with ⟨d, hd, rfl⟩
    exact hndvals d hd
  · exact h2s _
  · have hp2 : List.Perm (tie2 (nonDoneOf (days.map (updD own))))
        ((nonDoneOf days).map (updD own)) := by
      rw [← hndmap]
      exact h2p _
    rw [hp2.countP_eq, ← (ht.map (updD own)).countP_eq, hpost, assignVals_count]
    have hlen1 : (tie2 (nonDoneOf (days.map (updD own)))).length = sorted1.length := by
      rw [(h2p _).length_eq, hndmap, List.length_map]
      exact ht.length_eq.symm
    rw [hlen1]

/-- Week/month bucket second pass writes nothing, elapsed or open. -/
theorem period_idem (days : List DCell) (target : Nat) (today : Z) (ty : PType)
    (t tie2 : List DCell → List DCell)
    (hnd : (days.map DCell.colIdx).Nodup)
    (hok : ∀ d ∈ days, ValOk d.val)
    (ht : List.Perm (t (nonDoneOf days)) (nonDoneOf days))
    (h2p : ∀ l, List.Perm (tie2 l) l)
    (h2s : ∀ l, ScoreSorted (tie2 l)) :
    processPeriodHabitSimple
      (tie2 (nonDoneOf (days.map (updD
        (processPeriodHabitSimple (t (nonDoneOf days)) days target today ty)))))
      (days.map (updD (processPeriodHabitSimple (t (nonDoneOf days)) days target today ty)))
      target today ty = [] := by
  by_cases hp : isPeriodStrictlyPast (lastDateOf days) today ty = true
  · exact past_idem days target today ty t tie2 hnd hok ht h2p h2s hp
  · have hp' : isPeriodStrictlyPast (lastDateOf days) today ty = false := by simpa using hp
    rw [processPeriod_open_eq _ days target today ty hp']
    rw [processPeriod_open_eq _ _ target today ty
      (by rw [lastDateOf_map_updD]; exact hp')]
    exact ongoing_idem days target today hnd

/-- One bucket of the second pass writes nothing, given that the write
list of the first pass looks up on this bucket's columns exactly like
the bucket's own flush. -/
theorem flush_idem (b : Bucket) (ws : List Write) (today : Z)
    (tie2 : List DCell → List DCell)
    (h2p : ∀ l, List.Perm (tie2 l) l) (h2s : ∀ l, ScoreSorted (tie2 l))
    (hnd : (b.days.map DCell.colIdx).Nodup)
    (hok : ∀ d ∈ b.days, ValOk d.val)
    (hframe : ∃ t : List DCell → List DCell,
      List.Perm (t (nonDoneOf b.days)) (nonDoneOf b.days) ∧
      ∀ d ∈ b.days, lookupW ws d.colIdx = lookupW (flushWrites t today b) d.colIdx) :
    flushWrites tie2 today (bUpd ws b) = [] := by
  obtain ⟨t, ht, hl⟩ := hframe
  have hdays : (bUpd ws b).days = b.days.map (updD (flushWrites t today b)) := by
    show b.days.map (updD ws) = _
    apply List.map_congr_left
    intro d hd
    exact updD_congr _ _ d (hl d hd)
  cases hty : b.type with
  | d =>
    rw [flushWrites_d tie2 today (bUpd ws b) (by rw [bUpd_type]; exact hty), hdays]
    rw [flushWrites_d t today b hty]
    exact daily_idem b.days today hnd
  | w =>
    rw [flushWrites_w tie2 today (bUpd ws b) (by rw [bUpd_type]; exact hty), hdays]
    rw [flushWrites_w t today b hty]
    show processPeriodHabitSimple _ _ (bUpd ws b).target today PType.w = []
    rw [show (bUpd ws b).target = b.target from rfl]
    exact period_idem b.days b.target today PType.w t tie2 hnd hok ht h2p h2s
  | m =>
    rw [flushWrites_m tie2 today (bUpd ws b) (by rw [bUpd_type]; exact hty), hdays]
    rw [flushWrites_m t today b hty]
    show processPeriodHabitSimple _ _ (bUpd ws b).target today PType.m = []
    rw [show (bUpd ws b).target = b.target from rfl]
    exact period_idem b.days b.target today PType.m t tie2 hnd hok ht h2p h2s

theorem bDays_nodup_each (bs : List Bucket)
    (hpw : ((bDaysOf bs).map DCell.colIdx).Pairwise (· < ·)) :
    ∀ b ∈ bs, (b.days.map DCell.colIdx).Nodup := by
  induction bs with
  | nil => intro b hb; cases hb
  | cons b0 rest ih =>
    obtain ⟨h1, h2, _⟩ := bDays_pairwise_decomp b0 rest hpw
    intro b hb
    rcases List.mem_cons.mp hb with rfl | hbr
    · exact h1.imp fun h => Nat.ne_of_lt h
    · exact ih h2 b hbr

/-- Second flush pass on a row's buckets writes nothing. -/
theorem flushAll_idem (tie2 : Nat → List DCell → List DCell) (today : Z)
    (h2 : ValidTie1 tie2) :
    ∀ (bs : List Bucket) (i : Nat) (ws : List Write),
      ((bDaysOf bs).map DCell.colIdx).Pairwise (· < ·) →
      (∀ b ∈ bs, ∀ d ∈ b.days, ValOk d.val) →
      (∀ b ∈ bs, ∃ t : List DCell → List DCell,
        List.Perm (t (nonDoneOf b.days)) (nonDoneOf b.days) ∧
        ∀ d ∈ b.days, lookupW ws d.colIdx = lookupW (flushWrites t today b) d.colIdx) →
      flushAll tie2 today i (bs.map (bUpd ws)) = [] := by
  intro bs
  induction bs with
  | nil => intro i ws _ _ _; rfl
  | cons b0 rest ih =>
    intro i ws hpw hok hframe
    rw [List.map_cons, flushAll_cons]
    obtain ⟨h1, h2', _⟩ := bDays_pairwise_decomp b0 rest hpw
    have hhead : flushWrites (tie2 i) today (bUpd ws b0) = [] :=
      flush_idem b0 ws today (tie2 i) (fun l => (h2 i l).1) (fun l => (h2 i l).2)
        (h1.imp fun h => Nat.ne_of_lt h)
        (hok b0 (List.mem_cons_self b0 rest)) (hframe b0 (List.mem_cons_self b0 rest))
    rw [hhead, List.nil_append]
    exact ih (i + 1) ws h2' (fun b hb => hok b (List.mem_cons_of_mem b0 hb))
      (fun b hb => hframe b (List.mem_cons_of_mem b0 hb))

/-- Second engine pass on one habit row writes nothing, for every pair of
tie-break outcomes, provided no cell value fools the loose/strict done
classification. -/
theorem runRow_idem (tie1 tie2 : Nat → List DCell → List DCell)
    (hist : Option (List Snap)) (live : String) (cells : List (Option Z × SheetVal))
    (today : Z) (h1 : ValidTie1 tie1) (h2 : ValidTie1 tie2)
    (hok : ∀ p ∈ cells, ValOk p.2) :
    runRow tie2 hist live (applyRow (runRow tie1 hist live cells today) cells) today = [] := by
  show flushAll tie2 today 0
      (bucketsAux hist live 2
        (applyRowAux (flushAll tie1 today 0 (bucketsOf hist live cells)) 2 cells) none) = []
  have hbmap := bucketsAux_apply hist live
    (flushAll tie1 today 0 (bucketsOf hist live cells)) cells 2 none
  simp only [Option.map_none'] at hbmap
  rw [hbmap]
  apply flushAll_idem tie2 today h2
  · exact bDays_pairwise hist live cells
  · intro b hb d hd
    have h3 := bDays_mem hist live cells d (mem_bDaysOf _ b hb d hd)
    exact hok _ (dcellsAux_val_mem cells 2 d h3)
  · intro b hb
    exact flushAll_frame tie1 today h1 (bucketsOf hist live cells) 0
      (bDays_pairwise hist live cells) b hb

theorem processFrom_cons (tie : Nat → Nat → List DCell → List DCell)
    (h : Option HistTable) (today : Z) (r : Nat) (hr : HabitRow) (rest : List HabitRow) :
    processFrom tie h today r (hr :: rest) =
      (runRow (tie r) (effHist h hr.name) (livePeriodicityOf hr.live) hr.cells today).map
        (fun w => ⟨r, w.colIdx, w.val⟩) ++ processFrom tie h today (r + 1) rest := rfl

theorem applySheetFrom_cons (ws : List RWrite) (r : Nat) (hr : HabitRow)
    (rest : List HabitRow) :
    applySheetFrom ws r (hr :: rest) =
      ⟨hr.name, hr.live,
        applyRow ((ws.filter fun w => w.row == r).map fun w => ⟨w.colIdx, w.val⟩)
          hr.cells⟩ :: applySheetFrom ws (r + 1) rest := rfl

theorem processFrom_row_ge (tie : Nat → Nat → List DCell → List DCell)
    (h : Option HistTable) (today : Z) :
    ∀ (rows : List HabitRow) (r : Nat), ∀ rw ∈ processFrom tie h today r rows,
      r ≤ rw.row := by
  intro rows
  induction rows with
  | nil => intro r rw hrw; exact absurd hrw (List.not_mem_nil rw)
  | cons hr rest ih =>
    intro r rw hrw
    rw [processFrom_cons] at hrw
    rcases List.mem_append.mp hrw with hm | hm
    · rcases List.mem_map.mp hm with ⟨w, _, rfl⟩
      exact Nat.le_refl r
    · exact Nat.le_of_succ_le (ih (r + 1) rw hm)

theorem tagged_filter_strip (r : Nat) (ws0 : List Write) :
    ((ws0.map fun w => RWrite.mk r w.colIdx w.val).filter fun w => w.row == r).map
      (fun w => Write.mk w.colIdx w.val) = ws0 := by
  induction ws0 with
  | nil => rfl
  | cons w rest ih =>
    simp only [List.map_cons, List.filter_cons]
    rw [if_pos (by simp)]
    simp only [List.map_cons]
    rw [ih]

theorem filter_row_lt_eq_nil (r : Nat) (ws : List RWrite)
    (hlt : ∀ w ∈ ws, w.row < r) :
    ws.filter (fun w => w.row == r) = [] := by
  apply List.filter_eq_nil_iff.mpr
  intro w hw
  have := hlt w hw
  simp only [beq_iff_eq]
  omega

theorem filter_row_gt_eq_nil (r : Nat) (ws : List RWrite)
    (hgt : ∀ w ∈ ws, r < w.row) :
    ws.filter (fun w => w.row == r) = [] := by
  apply List.filter_eq_nil_iff.mpr
  intro w hw
  have := hgt w hw
  simp only [beq_iff_eq]
  omega

theorem applySheetFrom_drop (a ws : List RWrite) :
    ∀ (rows : List HabitRow) (r : Nat), (∀ rw ∈ a, rw.row < r) →
      applySheetFrom (a ++ ws) r rows = applySheetFrom ws r rows := by
  intro rows
  induction rows with
  | nil => intro r _; rfl
  | cons hr rest ih =>
    intro r hlt
    rw [applySheetFrom_cons, applySheetFrom_cons, List.filter_append,
      filter_row_lt_eq_nil r a hlt, List.nil_append,
      ih (r + 1) fun rw hrw => Nat.lt_succ_of_lt (hlt rw hrw)]

/-- Second whole-sheet engine pass writes nothing, from any starting row
index. -/
theorem processFrom_idem (tie1 tie2 : Nat → Nat → List DCell → List DCell)
    (h : Option HistTable) (today : Z)
    (h1 : ValidTie2 tie1) (h2 : ValidTie2 tie2) :
    ∀ (rows : List HabitRow) (r : Nat),
      (∀ hr ∈ rows, ∀ p ∈ hr.cells, ValOk p.2) →
      processFrom tie2 h today r
        (applySheetFrom (processFrom tie1 h today r rows) r rows) = [] := by
  intro rows
  induction rows with
  | nil => intro r _; rfl
  | cons hr rest ih =>
    intro r hok
    rw [processFrom_cons tie1, applySheetFrom_cons]
    have hfilter : (((runRow (tie1 r) (effHist h hr.name) (livePeriodicityOf hr.live)
        hr.cells today).map (fun w => RWrite.mk r w.colIdx w.val) ++
          processFrom tie1 h today (r + 1) rest).filter fun w => w.row == r).map
        (fun w => Write.mk w.colIdx w.val) =
        runRow (tie1 r) (effHist h hr.name) (livePeriodicityOf hr.live) hr.cells today := by
      rw [List.filter_append,
        filter_row_gt_eq_nil r _ (fun w hw =>
          Nat.lt_of_succ_le (processFrom_row_ge tie1 h today rest (r + 1) w hw)),
        List.append_nil]
      exact tagged_filter_strip r _
    rw [hfilter]
    rw [applySheetFrom_drop _ _ rest (r + 1) (by
      intro rw hrw
      rcases List.mem_map.mp hrw with ⟨w, _, rfl⟩
      exact Nat.lt_succ_self r)]
    rw [processFrom_cons tie2]
    have hhead : runRow (tie2 r) (effHist h hr.name) (livePeriodicityOf hr.live)
        (applyRow (runRow (tie1 r) (effHist h hr.name) (livePeriodicityOf hr.live)
          hr.cells today) hr.cells) today = [] :=
      runRow_idem (tie1 r) (tie2 r) (effHist h hr.name) (livePeriodicityOf hr.live)
        hr.cells today (h1 r) (h2 r)
        (hok hr (List.mem_cons_self hr rest))
    dsimp only
    rw [hhead]
    simp only [List.map_nil, List.nil_append]
    exact ih (r + 1) fun hr' hhr' => hok hr' (List.mem_cons_of_mem hr hhr')

theorem runRow_targets (tie : Nat → List DCell → List DCell) (hist : Option (List Snap))
    (live : String) (cells : List (Option Z × SheetVal)) (today : Z)
    (hv : ValidTie1 tie) :
    ∀ w ∈ runRow tie hist live cells today,
      ∃ d ∈ dcellsOf cells, w.colIdx = d.colIdx ∧ strictNonDone d.val = true := by
  intro w hw
  obtain ⟨d, hd, hcol, hsnd⟩ :=
    flushAll_targets tie today hv (bucketsOf hist live cells) 0 w hw
  exact ⟨d, bDays_mem hist live cells d hd, hcol, hsnd⟩

theorem applySheetFrom_get (ws : List RWrite) :
    ∀ (rows : List HabitRow) (r0 k : Nat),
      (applySheetFrom ws r0 rows).get? k = (rows.get? k).map fun hr =>
        ⟨hr.name, hr.live,
          applyRow ((ws.filter fun w => w.row == r0 + k).map fun w => ⟨w.colIdx, w.val⟩)
            hr.cells⟩ := by
  intro rows
  induction rows with
  | nil => intro r0 k; simp [applySheetFrom]
  | cons hr rest ih =>
    intro r0 k
    rw [applySheetFrom_cons]
    cases k with
    | zero => simp
    | succ k' =>
      rw [List.get?_cons_succ, List.get?_cons_succ, ih (r0 + 1) k']
      rw [show r0 + 1 + k' = r0 + (k' + 1) from by omega]

theorem applyRowAux_get (ws : List Write) :
    ∀ (cells : List (Option Z × SheetVal)) (c i : Nat),
      (applyRowAux ws c cells).get? i = (cells.get? i).map fun p =>
        (p.1, match lookupW ws (c + i + 1) with
              | some n => SheetVal.num n
              | none => p.2) := by
  intro cells
  induction cells with
  | nil => intro c i; simp [applyRowAux]
  | cons p rest ih =>
    intro c i
    obtain ⟨od, v⟩ := p
    show ((od, _) :: applyRowAux ws (c + 1) rest).get? i = _
    cases i with
    | zero => simp
    | succ i' =>
      rw [List.get?_cons_succ, List.get?_cons_succ, ih (c + 1) i']
      rw [show c + 1 + i' + 1 = c + (i' + 1) + 1 from by omega]

theorem processFrom_filter_get (tie : Nat → Nat → List DCell → List DCell)
    (h : Option HistTable) (today : Z) :
    ∀ (rows : List HabitRow) (r0 k : Nat) (hr : HabitRow), rows.get? k = some hr →
      ((processFrom tie h today r0 rows).filter fun w => w.row == r0 + k).map
        (fun w => Write.mk w.colIdx w.val) =
        runRow (tie (r0 + k)) (effHist h hr.name) (livePeriodicityOf hr.live)
          hr.cells today := by
  intro rows
  induction rows with
  | nil => intro r0 k hr hk; exact absurd hk (by simp)
  | cons hr0 rest ih =>
    intro r0 k hr hk
    rw [processFrom_cons, List.filter_append, List.map_append]
    cases k with
    | zero =>
      rw [List.get?_cons_zero] at hk
      rcases Option.some.inj hk with rfl
      simp only [Nat.add_zero]
      rw [filter_row_gt_eq_nil r0 (processFrom tie h today (r0 + 1) rest)
        (fun w hw => Nat.lt_of_succ_le (processFrom_row_ge tie h today rest (r0 + 1) w hw))]
      rw [tagged_filter_strip r0]
      simp
    | succ k' =>
      rw [filter_row_lt_eq_nil (r0 + (k' + 1)) _ (fun w hw => by
        rcases List.mem_map.mp hw with ⟨w0, _, rfl⟩
        show r0 < r0 + (k' + 1)
        omega)]
      rw [List.get?_cons_succ] at hk
      have h0 := ih (r0 + 1) k' hr hk
      rw [show r0 + 1 + k' = r0 + (k' + 1) from by omega] at h0
      rw [h0]
      simp

/-! ## C1: completions are sticky -/

/-- C1: for every cell whose value is the integer 1 or 2, a full engine
pass (`processHabitStates`) leaves that cell unchanged: day buckets only
touch values in {empty, 0, -2}, elapsed periods only touch cells passing
the strict `!== 1 && !== 2` filter, and open periods only touch neutral
cells, so no branch of the evaluator overwrites an explicit completion. -/
theorem claim1_completion_sticky (tie : Nat → Nat → List DCell → List DCell)
    (h : Option HistTable) (rows : List HabitRow) (today : Z)
    (hv : ValidTie2 tie) (r i : Nat) (od : Option Z) (v : SheetVal)
    (hc : cellAt rows r i = some (od, v))
    (hdone : v = SheetVal.num 1 ∨ v = SheetVal.num 2) :
    cellAt (applySheet (processHabitStates tie h rows today) rows) r i =
      some (od, v) := by
  unfold cellAt at hc ⊢
  cases hrow : rows.get? r with
  | none => rw [hrow] at hc; exact Option.noConfusion hc
  | some hr =>
    rw [hrow] at hc
    dsimp only at hc
    show (match (applySheetFrom (processFrom tie h today 0 rows) 0 rows).get? r with
          | some hr' => hr'.cells.get? i
          | none => none) = some (od, v)
    rw [applySheetFrom_get (processFrom tie h today 0 rows) rows 0 r, hrow,
      processFrom_filter_get tie h today rows 0 r hr hrow]
    show (applyRowAux (runRow (tie (0 + r)) (effHist h hr.name)
        (livePeriodicityOf hr.live) hr.cells today) 2 hr.cells).get? i = some (od, v)
    rw [applyRowAux_get _ hr.cells 2 i, hc]
    have hnone : lookupW (runRow (tie (0 + r)) (effHist h hr.name)
        (livePeriodicityOf hr.live) hr.cells today) (2 + i + 1) = none := by
      apply lookupW_none
      intro w hw hcc
      obtain ⟨d, hd, hcol, hsnd⟩ := runRow_targets (tie (0 + r)) (effHist h hr.name)
        (livePeriodicityOf hr.live) hr.cells today (hv (0 + r)) w hw
      have hget := dcellsAux_get hr.cells 2 d hd
      have hidx : d.colIdx - 2 - 1 = i := by
        rw [← hcol, hcc]
        omega
      rw [hidx, hc] at hget
      have hv2 : v = d.val := by
        have := Option.some.inj hget
        exact congrArg Prod.snd this
      rcases hdone with h1 | h1 <;> rw [← hv2, h1] at hsnd <;> exact absurd hsnd (by decide)
    rw [hnone]
    rfl

/-- Closed check of C1: a past-week cell already marked done (value 1)
keeps its value through a full engine pass. -/
theorem claim1_witness :
    cellAt (applySheet (processHabitStates tieS none
        [⟨"h", "1/w", [(some (zOf 2025 6 2), SheetVal.num 1)]⟩] (zOf 2025 6 20))
        [⟨"h", "1/w", [(some (zOf 2025 6 2), SheetVal.num 1)]⟩]) 0 0 =
      some (some (zOf 2025 6 2), SheetVal.num 1) :=
  claim1_completion_sticky tieS none
    [⟨"h", "1/w", [(some (zOf 2025 6 2), SheetVal.num 1)]⟩] (zOf 2025 6 20)
    validTie2_tieS 0 0 (some (zOf 2025 6 2)) (SheetVal.num 1) (by decide) (Or.inl rfl)

/-! ## C2: idempotence of the engine -/

/-- C2 counterexample: a sheet whose only cell is the text value `"1"`
in an elapsed `1/w` week.  The loose `==` counts it as done (target met,
`needed = 0`), yet the strict `!==` puts it among the non-done cells, so
the first pass overwrites it with `-2`; the second pass then sees zero
done cells and marks the same cell `-1` — a non-empty second write list.
(Both passes use the stable score sort, a valid tie-break outcome.) -/
theorem claim2_counterexample :
    processHabitStates tieS none
        (applySheet (processHabitStates tieS none [textOneRow] (zOf 2025 6 20))
          [textOneRow]) (zOf 2025 6 20) = [⟨0, 3, -1⟩] ∧
      ([⟨0, 3, -1⟩] : List RWrite) ≠ [] := by
  constructor
  · decide
  · decide

/-- C2 amended: running the full engine twice in succession with no
intervening external writes performs zero cell writes on the second run,
for every pair of tie-break outcomes, provided no stored cell is a text
value that the loose `==` comparison counts as a completion (such as the
text `"1"`) — numeric and empty cells satisfy this unconditionally. -/
theorem claim2_idempotent (tie1 tie2 : Nat → Nat → List DCell → List DCell)
    (h : Option HistTable) (rows : List HabitRow) (today : Z)
    (h1 : ValidTie2 tie1) (h2 : ValidTie2 tie2)
    (hok : ∀ hr ∈ rows, ∀ p ∈ hr.cells, ValOk p.2) :
    processHabitStates tie2 h
      (applySheet (processHabitStates tie1 h rows today) rows) today = [] :=
  processFrom_idem tie1 tie2 h today h1 h2 rows 0 hok

/-- Closed check of C2 as amended on a mixed sheet (one done, one empty,
one neutral cell of an elapsed `2/w` week): the first pass writes, the
second writes nothing. -/
theorem claim2_witness :
    processHabitStates tieS none
        (applySheet (processHabitStates tieS none
            [⟨"h", "2/w", [(some (zOf 2025 6 2), SheetVal.num 1),
              (some (zOf 2025 6 3), SheetVal.empty),
              (some (zOf 2025 6 4), SheetVal.num 0)]⟩] (zOf 2025 6 20))
          [⟨"h", "2/w", [(some (zOf 2025 6 2), SheetVal.num 1),
            (some (zOf 2025 6 3), SheetVal.empty),
            (some (zOf 2025 6 4), SheetVal.num 0)]⟩]) (zOf 2025 6 20) = [] :=
  claim2_idempotent tieS tieS none
    [⟨"h", "2/w", [(some (zOf 2025 6 2), SheetVal.num 1),
      (some (zOf 2025 6 3), SheetVal.empty),
      (some (zOf 2025 6 4), SheetVal.num 0)]⟩] (zOf 2025 6 20)
    validTie2_tieS validTie2_tieS (by decide)

/-! ## C3: elapsed-period evaluation -/

/-- C3 counterexample: with a single non-done cell and target 2, `needed`
is 2 but only one cell can be (and is) marked `-1` — the claim's
"exactly `needed` of the non-done member cells" is impossible whenever
the target exceeds the bucket size.  (The single-cell non-done list is
its own unique tie-break outcome.) -/
theorem claim3_counterexample :
    ((nonDoneOf oneNeutralPastDay).map
        (updD (processPeriodHabitSimple (nonDoneOf oneNeutralPastDay) oneNeutralPastDay 2
          (zOf 2025 6 20) PType.w))).countP
        (fun d => decide (d.val = SheetVal.num (-1))) = 1 ∧
    2 - oneNeutralPastDay.countP
        (fun d => decide (d.val = SheetVal.num 1 ∨ d.val = SheetVal.num 2)) = 2 ∧
    (1 : Nat) ≠ 2 := by
  decide

/-- C3 amended: for an elapsed week/month bucket whose member values are
within the loose/strict agreement domain (`ValOk`), one evaluator pass
leaves exactly `min(needed, #non-done)` non-done cells at `-1` — not
always `needed` of them — and every remaining non-done cell at `-2`,
emitting a write only where the stored value differs from the computed
one.  `sorted` ranges over every outcome of the randomized tie-break. -/
theorem claim3_amended (days sorted : List DCell) (target : Nat) (today : Z) (ty : PType)
    (hnd : (days.map DCell.colIdx).Nodup)
    (hok : ∀ d ∈ days, ValOk d.val)
    (hperm : List.Perm sorted (nonDoneOf days))
    (hpast : isPeriodStrictlyPast (lastDateOf days) today ty = true) :
    ((nonDoneOf days).map
        (updD (processPeriodHabitSimple sorted days target today ty))).countP
        (fun d => decide (d.val = SheetVal.num (-1))) =
      min (target - days.countP
          (fun d => decide (d.val = SheetVal.num 1 ∨ d.val = SheetVal.num 2)))
        (nonDoneOf days).length ∧
    (∀ d ∈ (nonDoneOf days).map
        (updD (processPeriodHabitSimple sorted days target today ty)),
      d.val = SheetVal.num (-1) ∨ d.val = SheetVal.num (-2)) ∧
    (∀ w ∈ processPeriodHabitSimple sorted days target today ty,
      ∃ d ∈ nonDoneOf days, w.colIdx = d.colIdx ∧ diffFromInt d.val w.val = true ∧
        (w.val = -1 ∨ w.val = -2)) := by
  rw [processPeriod_past_eq sorted days target today ty hpast, doneAgree days hok]
  have hndN : ((nonDoneOf days).map DCell.colIdx).Nodup :=
    ((List.filter_sublist days).map DCell.colIdx).nodup hnd
  have hndS : (sorted.map DCell.colIdx).Nodup :=
    ((hperm.map DCell.colIdx).nodup_iff).mpr hndN
  have hpost := pastAssign_post
    (target - days.countP fun d => decide (d.val = SheetVal.num 1 ∨ d.val = SheetVal.num 2))
    sorted hndS
  have hpermU := hperm.map
    (updD (pastAssign
      (target - days.countP fun d => decide (d.val = SheetVal.num 1 ∨ d.val = SheetVal.num 2))
      sorted))
  refine ⟨?_, ?_, ?_⟩
  · rw [← hpermU.countP_eq, hpost, assignVals_count, hperm.length_eq]
  · intro d hd
    have hd' := hpermU.symm.subset hd
    rw [hpost] at hd'
    exact assignVals_vals _ sorted d hd'
  · intro w hw
    obtain ⟨⟨d, hd, hcol, hdiff⟩, hval⟩ := pastAssign_mem _ sorted w hw
    exact ⟨d, hperm.subset hd, hcol, hdiff, hval⟩

/-- Closed check of C3 as amended: a `2/w` bucket of ISO week 2025-W23
with one done and two neutral cells, judged on 2025-06-20, ends with
exactly `min(2 - 1, 2) = 1` cell at `-1` and the other at `-2`. -/
theorem claim3_witness :
    ((nonDoneOf weekDemo).map
        (updD (processPeriodHabitSimple (tieSort (nonDoneOf weekDemo)) weekDemo 2
          (zOf 2025 6 20) PType.w))).countP
        (fun d => decide (d.val = SheetVal.num (-1))) =
      min (2 - weekDemo.countP
          (fun d => decide (d.val = SheetVal.num 1 ∨ d.val = SheetVal.num 2)))
        (nonDoneOf weekDemo).length ∧
    (∀ d ∈ (nonDoneOf weekDemo).map
        (updD (processPeriodHabitSimple (tieSort (nonDoneOf weekDemo)) weekDemo 2
          (zOf 2025 6 20) PType.w)),
      d.val = SheetVal.num (-1) ∨ d.val = SheetVal.num (-2)) ∧
    (∀ w ∈ processPeriodHabitSimple (tieSort (nonDoneOf weekDemo)) weekDemo 2
        (zOf 2025 6 20) PType.w,
      ∃ d ∈ nonDoneOf weekDemo, w.colIdx = d.colIdx ∧ diffFromInt d.val w.val = true ∧
        (w.val = -1 ∨ w.val = -2)) :=
  claim3_amended weekDemo (tieSort (nonDoneOf weekDemo)) 2 (zOf 2025 6 20) PType.w
    (by decide) (by decide) (tieSort_perm _) (by decide)

/-! ## C4: open-period evaluation -/

/-- C4 counterexample: a past text cell `"1"` counts as done through the
loose `==` even though it is not the integer 1 or 2; with claim-side
`done = 0` and `remaining = 0` below the target, the claim predicts no
writes, yet the evaluator excuses the neutral Tuesday with `-2`. -/
theorem claim4_counterexample :
    textOneWeek.countP
        (fun d => decide (d.val = SheetVal.num 1 ∨ d.val = SheetVal.num 2)) +
        (textOneWeek.filter fun d => zOf 2025 6 6 ≤ d.date).length < 1 ∧
    isPeriodStrictlyPast (lastDateOf textOneWeek) (zOf 2025 6 6) PType.w = false ∧
    processPeriodHabitSimple (nonDoneOf textOneWeek) textOneWeek 1 (zOf 2025 6 6)
        PType.w = [⟨4, -2⟩] := by
  decide

/-- C4 amended: for a not-yet-elapsed week/month bucket whose member
values are within the loose/strict agreement domain (`ValOk`): when
`done + remaining` reaches the target, the pass writes `-2` to exactly
the past neutral member cells; when it falls short, it writes nothing. -/
theorem claim4_amended (sorted days : List DCell) (target : Nat) (today : Z) (ty : PType)
    (hok : ∀ d ∈ days, ValOk d.val)
    (hopen : isPeriodStrictlyPast (lastDateOf days) today ty = false) :
    (target ≤ days.countP
        (fun d => decide (d.val = SheetVal.num 1 ∨ d.val = SheetVal.num 2)) +
        (days.filter fun d => today ≤ d.date).length →
      processPeriodHabitSimple sorted days target today ty =
        days.filterMap fun d =>
          if d.date < today ∧ (d.val = SheetVal.empty ∨ d.val = SheetVal.num 0)
          then some ⟨d.colIdx, -2⟩ else none) ∧
    (days.countP
        (fun d => decide (d.val = SheetVal.num 1 ∨ d.val = SheetVal.num 2)) +
        (days.filter fun d => today ≤ d.date).length < target →
      processPeriodHabitSimple sorted days target today ty = []) := by
  rw [processPeriod_open_eq sorted days target today ty hopen]
  simp only [ongoingWrites]
  rw [doneAgree days hok]
  constructor
  · intro hge
    rw [if_pos hge]
  · intro hlt
    rw [if_neg (by omega)]

/-- Closed check of C4 as amended: the spec's `1/w` open-week example —
a past neutral Monday and a future Saturday seen on Friday 2025-06-06 —
excuses exactly the Monday cell with `-2`. -/
theorem claim4_witness :
    processPeriodHabitSimple (tieSort (nonDoneOf openWeek)) openWeek 1 (zOf 2025 6 6)
        PType.w =
      openWeek.filterMap (fun d =>
        if d.date < zOf 2025 6 6 ∧ (d.val = SheetVal.empty ∨ d.val = SheetVal.num 0)
        then some ⟨d.colIdx, -2⟩ else none) ∧
    processPeriodHabitSimple (tieSort (nonDoneOf openWeek)) openWeek 1 (zOf 2025 6 6)
        PType.w = [⟨3, -2⟩] :=
  ⟨(claim4_amended (tieSort (nonDoneOf openWeek)) openWeek 1 (zOf 2025 6 6) PType.w
      (by decide) (by decide)).1 (by decide),
   by decide⟩

/-! ## C10: snapshot writer never records an empty rule -/

/-- C10 counterexample: a live periodicity consisting of a single space
is truthy, so `savePeriodicitySnapshot` records `" "` verbatim — and the
engine's normalization trims it to the empty string, which the resolver
treats as "habit did not exist". -/
theorem claim10_counterexample :
    snapshotEntries [⟨"h", " ", []⟩] = [("h", " ")] ∧
      (" " : String) ≠ "" ∧
      ruleOfFreq (normFreq " ") = none := by
  refine ⟨rfl, by decide, ?_⟩
  decide

/-- C10 amended: every snapshot entry the writer records is a non-empty
string (an empty live cell is recorded as `1/d`), and the recorded entry
resolves to a non-empty rule provided the live value is not made of
whitespace only — only a whitespace-only live value survives `|| "1/d"`
yet trims to the empty "habit did not exist" rule. -/
theorem claim10_amended (rows : List HabitRow)
    (hok : ∀ hr ∈ rows, hr.live = "" ∨ normFreq hr.live ≠ "") :
    ∀ e ∈ snapshotEntries rows, e.2 ≠ "" ∧ ruleOfFreq (normFreq e.2) ≠ none := by
  intro e he
  rcases List.mem_map.mp he with ⟨hr, hhr, hle⟩
  subst hle
  rcases hok hr hhr with h | h
  · rw [writtenPeriod, if_pos h]
    exact ⟨show ("1/d" : String) ≠ "" by decide,
      show ruleOfFreq (normFreq "1/d") ≠ none by decide⟩
  · have hne : hr.live ≠ "" := by
      intro h0
      apply h
      rw [h0]
      decide
    rw [writtenPeriod, if_neg hne]
    exact ⟨hne, ruleOfFreq_ne_none _ h⟩

/-- Closed check of C10 as amended on a two-habit sheet: `2/w` is kept,
an empty live cell is recorded as the non-empty default `1/d`, and both
entries resolve to a rule. -/
theorem claim10_witness :
    (("2/w" : String) ≠ "" ∧ ruleOfFreq (normFreq "2/w") ≠ none) ∧
    (("1/d" : String) ≠ "" ∧ ruleOfFreq (normFreq "1/d") ≠ none) := by
  have h := claim10_amended [⟨"h", "2/w", []⟩, ⟨"g", "", []⟩] (by decide)
  exact ⟨h ("h", "2/w") (by decide), h ("g", "1/d") (by decide)⟩

/-! ## C9: read projection vs. engine resolver -/

theorem snapIdx_map_some : ∀ (zs : List Z) (i0 : Nat),
    snapIdx (zs.map some) i0 = zipIdxFrom i0 zs := by
  intro zs
  induction zs with
  | nil => intro i0; rfl
  | cons z rest ih =>
    intro i0
    show (z, i0) :: snapIdx (rest.map some) (i0 + 1) = (z, i0) :: zipIdxFrom (i0 + 1) rest
    rw [ih (i0 + 1)]

theorem zipIdxFrom_fst_mem : ∀ (zs : List Z) (i0 : Nat) (p : Z × Nat),
    p ∈ zipIdxFrom i0 zs → p.1 ∈ zs := by
  intro zs
  induction zs with
  | nil => intro i0 p hp; exact absurd hp (List.not_mem_nil p)
  | cons z rest ih =>
    intro i0 p hp
    rcases List.mem_cons.mp hp with rfl | h
    · exact List.mem_cons_self z rest
    · exact List.mem_cons_of_mem z (ih (i0 + 1) p h)

theorem zipIdxFrom_sorted : ∀ (zs : List Z) (i0 : Nat), zs.Pairwise (· < ·) →
    (zipIdxFrom i0 zs).Pairwise fun a b => a.1 ≤ b.1 := by
  intro zs
  induction zs with
  | nil => intro i0 _; exact List.Pairwise.nil
  | cons z rest ih =>
    intro i0 hasc
    obtain ⟨hz, hasc'⟩ := List.pairwise_cons.mp hasc
    refine List.pairwise_cons.mpr ⟨?_, ih (i0 + 1) hasc'⟩
    intro b hb
    exact Nat.le_of_lt (hz b.1 (zipIdxFrom_fst_mem rest (i0 + 1) b hb))

theorem snapDatesOf_sorted (t : HistTable) (zs : List Z)
    (hhead : t.snapHeader = zs.map some) (hasc : zs.Pairwise (· < ·)) :
    snapDatesOf t = zipIdxFrom 0 zs := by
  unfold snapDatesOf
  rw [hhead, snapIdx_map_some zs 0]
  exact List.Sorted.insertionSort_eq (zipIdxFrom_sorted zs 0 hasc)

theorem projLookup_eq (name : String) (hname : name ≠ "") (sel : Nat) :
    ∀ rows : List (String × List String),
      projLookup rows sel name = (lookupLast rows name).map fun fs => fs.getD sel "" := by
  intro rows
  induction rows with
  | nil => rfl
  | cons p rest ih =>
    obtain ⟨n, v⟩ := p
    show (match projLookup rest sel name with
          | some r => some r
          | none => if n = name ∧ n ≠ "" then some (v.getD sel "") else none) = _
    rw [ih]
    show _ = (match lookupLast rest name with
              | some r => some r
              | none => if n = name then some v else none).map
        fun fs : List String => fs.getD sel ""
    cases lookupLast rest name with
    | some r => rfl
    | none =>
      simp only [Option.map_none']
      by_cases hn : n = name
      · rw [if_pos ⟨hn, hn ▸ hname⟩, if_pos hn]
        rfl
      · rw [if_neg (fun hc => hn hc.1), if_neg hn]
        rfl

theorem projBestAux_char (today : Z) :
    ∀ (zs : List Z) (i0 : Nat) (bd : Z) (cur : Option Nat),
      zs.Pairwise (· < ·) → (∀ z ∈ zs, bd ≤ z) →
      projBestAux (zs.map some) i0 today bd cur =
        if (zs.countP fun z => decide (z ≤ today)) = 0 then cur
        else some (i0 + (zs.countP fun z => decide (z ≤ today)) - 1) := by
  intro zs
  induction zs with
  | nil => intro i0 bd cur _ _; simp [projBestAux]
  | cons z rest ih =>
    intro i0 bd cur hasc hbd
    obtain ⟨hz, hasc'⟩ := List.pairwise_cons.mp hasc
    by_cases hle : z ≤ today
    · rw [show projBestAux ((z :: rest).map some) i0 today bd cur =
          projBestAux (rest.map some) (i0 + 1) today z (some i0) from by
        show projBestAux (some z :: rest.map some) i0 today bd cur = _
        conv_lhs => unfold projBestAux
        dsimp only
        rw [if_pos ⟨hle, hbd z (List.mem_cons_self z rest)⟩]]
      rw [ih (i0 + 1) z (some i0) hasc' fun z' hz' => Nat.le_of_lt (hz z' hz')]
      rw [List.countP_cons_of_pos _ _ (by simp [hle])]
      by_cases h0 : (rest.countP fun z => decide (z ≤ today)) = 0
      · rw [if_pos h0, if_neg (Nat.succ_ne_zero _), h0]
        have hk : i0 + (0 + 1) - 1 = i0 := by omega
        rw [hk]
      · rw [if_neg h0, if_neg (Nat.succ_ne_zero _)]
        have hk : i0 + 1 + (rest.countP fun z => decide (z ≤ today)) - 1 =
            i0 + ((rest.countP fun z => decide (z ≤ today)) + 1) - 1 := by omega
        rw [hk]
    · have hrest0 : (rest.countP fun z => decide (z ≤ today)) = 0 := by
        rw [List.countP_eq_zero]
        intro x hx
        have h1 : today < z := Nat.not_le.mp hle
        have h2 : z < x := hz x hx
        simp only [decide_eq_true_eq]
        exact fun hc => Nat.lt_irrefl x (Nat.lt_trans (Nat.lt_of_le_of_lt hc h1) h2)
      have hcnt : ((z :: rest).countP fun z => decide (z ≤ today)) = 0 := by
        rw [List.countP_cons_of_neg _ _ (by simp [hle]), hrest0]
      rw [hcnt]
      rw [show projBestAux ((z :: rest).map some) i0 today bd cur =
          projBestAux (rest.map some) (i0 + 1) today bd cur from by
        show projBestAux (some z :: rest.map some) i0 today bd cur = _
        conv_lhs => unfold projBestAux
        dsimp only
        rw [if_neg fun hc => hle hc.1]]
      rw [ih (i0 + 1) bd cur hasc'
        fun z' hz' => Nat.le_trans (hbd z (List.mem_cons_self z rest))
          (Nat.le_of_lt (hz z' hz'))]
      rw [if_pos hrest0]
      simp

theorem projSelIdx_char (t : HistTable) (zs : List Z) (today : Z)
    (hhead : t.snapHeader = zs.map some) (hasc : zs.Pairwise (· < ·))
    (hepoch : ∀ z ∈ zs, epochZ ≤ z) (hne : zs ≠ []) :
    projSelIdx t today = some (selIdxOf zs today) := by
  unfold projSelIdx
  rw [hhead, projBestAux_char today zs 0 epochZ none hasc hepoch]
  unfold selIdxOf
  by_cases h0 : (zs.countP fun z => decide (z ≤ today)) = 0
  · rw [if_pos h0, if_pos h0]
    have hlen : (zs.map some (α := Z)).length ≠ 0 := by
      rw [List.length_map]
      intro hc
      exact hne (List.length_eq_zero.mp hc)
    show (if (zs.map some).length ≠ 0 then some 0 else none) = some 0
    rw [if_pos hlen]
  · rw [if_neg h0, if_neg h0]
    show some (0 + (zs.countP fun z => decide (z ≤ today)) - 1) = _
    congr 1
    omega

theorem lastLE_freq (today : Z) (freqs : List String) :
    ∀ (zs : List Z) (i0 : Nat) (dflt : Snap), zs.Pairwise (· < ·) →
      ((lastLE today ((zipIdxFrom i0 zs).map fun p =>
          Snap.mk p.1 (normFreq (freqs.getD p.2 "")))).getD dflt).freq =
        (if (zs.countP fun z => decide (z ≤ today)) = 0 then dflt.freq
         else normFreq
           (freqs.getD (i0 + (zs.countP fun z => decide (z ≤ today)) - 1) "")) := by
  intro zs
  induction zs with
  | nil => intro i0 dflt _; simp [zipIdxFrom, lastLE]
  | cons z rest ih =>
    intro i0 dflt hasc
    obtain ⟨hz, hasc'⟩ := List.pairwise_cons.mp hasc
    show ((lastLE today (Snap.mk z (normFreq (freqs.getD i0 "")) ::
        (zipIdxFrom (i0 + 1) rest).map fun p =>
          Snap.mk p.1 (normFreq (freqs.getD p.2 "")))).getD dflt).freq = _
    by_cases hle : z ≤ today
    · rw [show lastLE today (Snap.mk z (normFreq (freqs.getD i0 "")) ::
          (zipIdxFrom (i0 + 1) rest).map fun p =>
            Snap.mk p.1 (normFreq (freqs.getD p.2 ""))) =
          some ((lastLE today ((zipIdxFrom (i0 + 1) rest).map fun p =>
            Snap.mk p.1 (normFreq (freqs.getD p.2 "")))).getD
              (Snap.mk z (normFreq (freqs.getD i0 "")))) from by
        conv_lhs => unfold lastLE
        rw [if_pos hle]]
      rw [Option.getD_some]
      rw [ih (i0 + 1) (Snap.mk z (normFreq (freqs.getD i0 ""))) hasc']
      rw [List.countP_cons_of_pos _ _ (by simp [hle])]
      by_cases h0 : (rest.countP fun z => decide (z ≤ today)) = 0
      · rw [if_pos h0, if_neg (Nat.succ_ne_zero _), h0]
        have hk : i0 + (0 + 1) - 1 = i0 := by omega
        rw [hk]
      · rw [if_neg h0, if_neg (Nat.succ_ne_zero _)]
        have hk : i0 + 1 + (rest.countP fun z => decide (z ≤ today)) - 1 =
            i0 + ((rest.countP fun z => decide (z ≤ today)) + 1) - 1 := by omega
        rw [hk]
    · have hrest0 : (rest.countP fun z => decide (z ≤ today)) = 0 := by
        rw [List.countP_eq_zero]
        intro x hx
        have h1 : today < z := Nat.not_le.mp hle
        have h2 : z < x := hz x hx
        simp only [decide_eq_true_eq]
        exact fun hc => Nat.lt_irrefl x (Nat.lt_trans (Nat.lt_of_le_of_lt hc h1) h2)
      have hcnt : ((z :: rest).countP fun z => decide (z ≤ today)) = 0 := by
        rw [List.countP_cons_of_neg _ _ (by simp [hle]), hrest0]
      rw [hcnt]
      rw [show lastLE today (Snap.mk z (normFreq (freqs.getD i0 "")) ::
          (zipIdxFrom (i0 + 1) rest).map fun p =>
            Snap.mk p.1 (normFreq (freqs.getD p.2 ""))) = none from by
        conv_lhs => unfold lastLE
        rw [if_neg hle]]
      rfl

theorem livePeriodicityOf_ne (live : String) (h : live ≠ "") :
    livePeriodicityOf live = normFreq live := by
  unfold livePeriodicityOf
  rw [if_neg h]

/-- Reduction of the projection on a present history table. -/
theorem projPeriodicity_red (t : HistTable) (today : Z) (name live : String) :
    projPeriodicity (some t) today name live =
      match (if t.rows = [] then (none : Option String) else
          match projSelIdx t today with
          | some sel => projLookup t.rows sel name
          | none => none) with
      | some v => if v = "" then live else v
      | none => live := rfl

/-- C9: the claim fails as stated.  Habit `h` has snapshots on 2025-05-01
(`2/w`) and 2025-06-01 (empty cell) and live value `3/w`.  On 2025-06-20 the
projection selects the June column, finds the empty entry, and falls back to
the live value `3/w` (a well-formed rule), while the engine resolver
(`getTargetForDate`) keeps the June snapshot entry, whose normalized empty
string yields no rule at all: the two disagree. -/
theorem claim9_counterexample :
    ruleOfFreq (normFreq (projPeriodicity (some emptySnapTable)
        (zOf 2025 6 20) "h" "3/w")) = some ⟨3, PType.w⟩ ∧
      getTargetForDate (effHist (some emptySnapTable) "h")
        (livePeriodicityOf "3/w") (zOf 2025 6 20) = none := by
  exact ⟨rfl, rfl⟩

/-- C9 (amended): on a history table whose snapshot header consists of
valid dates, ascending and not before the epoch, and for a habit with a
non-empty name, the periodicity string emitted by the read projection
parses to exactly the rule the engine resolver (`getTargetForDate` over the
engine-built history list) produces for today, provided the snapshot entry
both paths settle on is non-empty (so the projection does not take its live
fallback) and, when the habit has no history row or there are no snapshot
columns, the live value is non-empty (so the trivial empty-string rule
mismatch of C10 does not arise). -/
theorem claim9_agreement (t : HistTable) (zs : List Z) (today : Z)
    (name live : String)
    (hhead : t.snapHeader = zs.map some)
    (hasc : zs.Pairwise (· < ·))
    (hepoch : ∀ z ∈ zs, epochZ ≤ z)
    (hname : name ≠ "")
    (hentry : ∀ freqs, lookupLast t.rows name = some freqs → zs ≠ [] →
        freqs.getD (selIdxOf zs today) "" ≠ "")
    (hlive : (lookupLast t.rows name = none ∨ zs = []) → live ≠ "") :
    ruleOfFreq (normFreq (projPeriodicity (some t) today name live)) =
      getTargetForDate (effHist (some t) name) (livePeriodicityOf live)
        today := by
  rw [projPeriodicity_red]
  cases hll : lookupLast t.rows name with
  | none =>
    have hlv : live ≠ "" := hlive (Or.inl hll)
    have hfrom : (if t.rows = [] then (none : Option String) else
        match projSelIdx t today with
        | some sel => projLookup t.rows sel name
        | none => none) = none := by
      by_cases hrows : t.rows = []
      · rw [if_pos hrows]
      · rw [if_neg hrows]
        cases hsel : projSelIdx t today with
        | none => rfl
        | some sel =>
          show projLookup t.rows sel name = none
          rw [projLookup_eq name hname sel t.rows, hll]
          rfl
    rw [hfrom]
    have hhist : effHist (some t) name = none := by
      unfold effHist histListFor
      dsimp only
      rw [hll]
      rfl
    rw [hhist]
    show ruleOfFreq (normFreq live) = ruleOfFreq (livePeriodicityOf live)
    rw [livePeriodicityOf_ne live hlv]
  | some freqs =>
    cases zs with
    | nil =>
      have hlv : live ≠ "" := hlive (Or.inr rfl)
      have hh0 : t.snapHeader = [] := by rw [hhead]; rfl
      have hsel : projSelIdx t today = none := by
        unfold projSelIdx
        rw [hh0]
        rfl
      have hfrom : (if t.rows = [] then (none : Option String) else
          match projSelIdx t today with
          | some sel => projLookup t.rows sel name
          | none => none) = none := by
        by_cases hrows : t.rows = []
        · rw [if_pos hrows]
        · rw [if_neg hrows, hsel]
      rw [hfrom]
      have hhist : effHist (some t) name = none := by
        unfold effHist histListFor snapDatesOf
        dsimp only
        rw [hll, hh0]
        rfl
      rw [hhist]
      show ruleOfFreq (normFreq live) = ruleOfFreq (livePeriodicityOf live)
      rw [livePeriodicityOf_ne live hlv]
    | cons z0 zr =>
      have hzs : z0 :: zr ≠ ([] : List Z) := by simp
      have hrows : t.rows ≠ [] := by
        intro hc
        rw [hc] at hll
        exact Option.noConfusion hll
      have hsel : projSelIdx t today = some (selIdxOf (z0 :: zr) today) :=
        projSelIdx_char t (z0 :: zr) today hhead hasc hepoch hzs
      have hne : freqs.getD (selIdxOf (z0 :: zr) today) "" ≠ "" :=
        hentry freqs hll hzs
      have hfrom : (if t.rows = [] then (none : Option String) else
          match projSelIdx t today with
          | some sel => projLookup t.rows sel name
          | none => none) =
          some (freqs.getD (selIdxOf (z0 :: zr) today) "") := by
        rw [if_neg hrows, hsel]
        show projLookup t.rows (selIdxOf (z0 :: zr) today) name = _
        rw [projLookup_eq name hname (selIdxOf (z0 :: zr) today) t.rows, hll]
        rfl
      rw [hfrom]
      have hsd : snapDatesOf t = zipIdxFrom 0 (z0 :: zr) :=
        snapDatesOf_sorted t (z0 :: zr) hhead hasc
      have hhist : effHist (some t) name =
          some ((zipIdxFrom 0 (z0 :: zr)).map fun p =>
            Snap.mk p.1 (normFreq (freqs.getD p.2 ""))) := by
        unfold effHist histListFor
        dsimp only
        rw [hll, hsd]
        rfl
      rw [hhist]
      show ruleOfFreq (normFreq (if freqs.getD (selIdxOf (z0 :: zr) today) ""
            = "" then live else freqs.getD (selIdxOf (z0 :: zr) today) "")) =
          ruleOfFreq ((lastLE today ((zipIdxFrom 0 (z0 :: zr)).map fun p =>
            Snap.mk p.1 (normFreq (freqs.getD p.2 "")))).getD
              (Snap.mk z0 (normFreq (freqs.getD 0 "")))).freq
      rw [if_neg hne]
      rw [lastLE_freq today freqs (z0 :: zr) 0
        (Snap.mk z0 (normFreq (freqs.getD 0 ""))) hasc]
      unfold selIdxOf
      by_cases hc : ((z0 :: zr).countP fun z => decide (z ≤ today)) = 0
      · rw [if_pos hc, if_pos hc]
      · rw [if_neg hc, if_neg hc]
        have hk : 0 + ((z0 :: zr).countP fun z => decide (z ≤ today)) - 1 =
            ((z0 :: zr).countP fun z => decide (z ≤ today)) - 1 := by
          rw [Nat.zero_add]
        rw [hk]

/-- C9 witness: a healthy table (snapshots `2/w` on 2025-05-01 and `3/w` on
2025-06-01 for habit `h`, live `9/m`), queried on 2025-06-20, satisfies the
amended hypotheses, so projection and resolver agree. -/
theorem claim9_witness :
    ruleOfFreq (normFreq (projPeriodicity
        (some ⟨[some (zOf 2025 5 1), some (zOf 2025 6 1)],
          [("h", ["2/w", "3/w"])]⟩) (zOf 2025 6 20) "h" "9/m")) =
      getTargetForDate
        (effHist (some ⟨[some (zOf 2025 5 1), some (zOf 2025 6 1)],
          [("h", ["2/w", "3/w"])]⟩) "h")
        (livePeriodicityOf "9/m") (zOf 2025 6 20) :=
  claim9_agreement
    ⟨[some (zOf 2025 5 1), some (zOf 2025 6 1)], [("h", ["2/w", "3/w"])]⟩
    [zOf 2025 5 1, zOf 2025 6 1] (zOf 2025 6 20) "h" "9/m"
    rfl (by decide) (by decide) (by decide)
    (fun freqs hf _ => by
      cases Option.some.inj hf
      decide)
    (fun _ => by decide)


end HabitTracker
